import Mathlib

/-!
Shallow embedding of the graph-kit repository core: the `Graph` adjacency
data structure, the edge-notation text converter, and the algorithm library
(traversal, Bellman-Ford, spanning tree, connectivity, structural
classifiers, metrics), together with theorems settling the specification
claims about them.

Modelling conventions:
* JavaScript numbers that carry node identities are modelled as `Int`
  (every claim uses integer identities); edge weights and distances are
  modelled as `ℚ` (`Infinity` becomes `⊤` in `WithTop ℚ`).
* `Set`/`Map` iteration order is insertion order, modelled by lists.
* The plain JavaScript object used for the adjacency list is modelled as an
  insertion-ordered association list keyed by the `String(id)` key, with
  lookups that return `none` for a missing key.
* Functions that `throw` are modelled in `Except String`.
-/

namespace GraphKit

/-- A node identity: a JavaScript number (integer-valued in every claim) or a
string.  Equality is value equality, as for JavaScript `===`: a numeric id and
a string id are never equal. -/
inductive NodeId where
  | num (n : Int)
  | str (s : String)
deriving DecidableEq, Repr, Inhabited

/-- `String(id)`: the key under which the source stores a node in its
adjacency-list object. -/
def NodeId.toKey : NodeId → String
  | .num n => toString n
  | .str s => s

/-- One neighbor-list entry `{ node, weight }`. -/
structure Slot where
  node : NodeId
  weight : ℚ
deriving DecidableEq, Repr, Inhabited

/-- The `Edge` record `{ from, to, weight? }` (`from` is a Lean keyword, hence
the `from_`/`to_` field names). -/
structure Edge where
  from_ : NodeId
  to_ : NodeId
  weight : Option ℚ
deriving DecidableEq, Repr, Inhabited

/-- The `GraphConfig` record. -/
structure GraphConfig where
  directed : Bool
  weighted : Bool
  allowSelfLoops : Bool
  allowMultipleEdges : Bool
deriving DecidableEq, Repr, Inhabited

/-- The defaults applied by the `Graph` constructor when no option is given:
undirected, unweighted, self-loops allowed, multi-edges disallowed. -/
def defaultConfig : GraphConfig :=
  { directed := false, weighted := false, allowSelfLoops := true, allowMultipleEdges := false }

/-- First-match lookup in an insertion-ordered association list (a JavaScript
object read `m[k]`). -/
def objGet {α : Type} : List (String × α) → String → Option α
  | [], _ => none
  | (k', v) :: rest, k => if k' = k then some v else objGet rest k

/-- Assignment `m[k] = v` on a JavaScript object: overwrite the existing key
in place, else append it. -/
def objSet {α : Type} : List (String × α) → String → α → List (String × α)
  | [], k, v => [(k, v)]
  | (k', v') :: rest, k, v =>
    if k' = k then (k, v) :: rest else (k', v') :: objSet rest k v

/-- `delete m[k]` on a JavaScript object. -/
def objDelete {α : Type} : List (String × α) → String → List (String × α)
  | [], _ => []
  | (k', v') :: rest, k =>
    if k' = k then rest else (k', v') :: objDelete rest k

/-- The `Graph` class state: the `nodes` set (insertion ordered), the
`adjacencyList` object, the configuration and the internal `edgeCount`
counter. -/
structure Graph where
  nodesList : List NodeId
  adj : List (String × List Slot)
  config : GraphConfig
  edgeCount : Int
deriving DecidableEq, Repr, Inhabited

/-- `new Graph(config)`. -/
def Graph.init (config : GraphConfig) : Graph :=
  { nodesList := [], adj := [], config := config, edgeCount := 0 }

/-- `addNode(id)`: no-op when the id is already in the `nodes` set; otherwise
records the id and assigns a fresh empty neighbor list under its string key
(overwriting whatever list that string key held, exactly as the source's
`this.adjacencyList[key] = []` does). -/
def Graph.addNode (g : Graph) (id : NodeId) : Graph :=
  if id ∈ g.nodesList then g
  else { g with
    nodesList := g.nodesList ++ [id]
    adj := objSet g.adj id.toKey [] }

/-- Overwrite the weight of the first slot matching `t`
(`existing.weight = weight` after `find`). -/
def updateFirstSlot : List Slot → NodeId → ℚ → List Slot
  | [], _, _ => []
  | s :: rest, t, w =>
    if s.node = t then { s with weight := w } :: rest else s :: updateFirstSlot rest t w

/-- Remove the first slot matching `t` (`splice` at `findIndex`). -/
def removeFirstSlot : List Slot → NodeId → List Slot
  | [], _ => []
  | s :: rest, t => if s.node = t then rest else s :: removeFirstSlot rest t

/-- `getNeighbors(id)`: the neighbor list under the id's string key, or `[]`
when the key is absent. -/
def Graph.getNeighbors (g : Graph) (id : NodeId) : List Slot :=
  (objGet g.adj id.toKey).getD []

/-- `addEdge(edge)`: default weight 1; reject self-loops when disallowed;
auto-add both endpoints; when multi-edges are disallowed and a `from → to`
slot exists, overwrite its weight in place and return (the undirected mirror
slot is not touched, exactly as in the source); otherwise append the slot,
increment `edgeCount` once, and for undirected graphs also append the
mirrored slot (with no second increment). -/
def Graph.addEdge (g : Graph) (e : Edge) : Except String Graph :=
  let w := e.weight.getD 1
  if ¬g.config.allowSelfLoops ∧ e.from_ = e.to_ then
    .error "Self-loops are not allowed in this graph"
  else
    let g1 := (g.addNode e.from_).addNode e.to_
    let fromList := g1.getNeighbors e.from_
    if ¬g1.config.allowMultipleEdges ∧ fromList.any (fun s => s.node = e.to_) then
      .ok { g1 with adj := objSet g1.adj e.from_.toKey (updateFirstSlot fromList e.to_ w) }
    else
      let g2 := { g1 with
        adj := objSet g1.adj e.from_.toKey (fromList ++ [⟨e.to_, w⟩])
        edgeCount := g1.edgeCount + 1 }
      if ¬g2.config.directed then
        let toList := g2.getNeighbors e.to_
        .ok { g2 with adj := objSet g2.adj e.to_.toKey (toList ++ [⟨e.from_, w⟩]) }
      else
        .ok g2

/-- `removeEdge(from, to)`: no-op when the from-key is absent or holds no
matching slot; otherwise remove the first matching slot, decrement
`edgeCount` once, and for undirected graphs also remove the mirrored slot. -/
def Graph.removeEdge (g : Graph) (from_ to_ : NodeId) : Graph :=
  match objGet g.adj from_.toKey with
  | none => g
  | some fromList =>
    if fromList.any (fun s => s.node = to_) then
      let g1 := { g with
        adj := objSet g.adj from_.toKey (removeFirstSlot fromList to_)
        edgeCount := g.edgeCount - 1 }
      if ¬g1.config.directed then
        let toList := g1.getNeighbors to_
        if toList.any (fun s => s.node = from_) then
          { g1 with adj := objSet g1.adj to_.toKey (removeFirstSlot toList from_) }
        else g1
      else g1
    else g

/-- `removeNode(id)`: no-op when absent; otherwise remove every incident edge
in both directions (iterating the node set as it was at entry), then delete
the adjacency key and the set entry. -/
def Graph.removeNode (g : Graph) (id : NodeId) : Graph :=
  if id ∈ g.nodesList then
    let g1 := g.nodesList.foldl
      (fun acc nodeId => (acc.removeEdge nodeId id).removeEdge id nodeId) g
    { g1 with
      adj := objDelete g1.adj id.toKey
      nodesList := g1.nodesList.erase id }
  else g

/-- `hasEdge(from, to)`. -/
def Graph.hasEdge (g : Graph) (from_ to_ : NodeId) : Bool :=
  match objGet g.adj from_.toKey with
  | none => false
  | some l => l.any (fun s => s.node = to_)

/-- `getEdgeWeight(from, to)`: `none` models `undefined`. -/
def Graph.getEdgeWeight (g : Graph) (from_ to_ : NodeId) : Option ℚ :=
  match objGet g.adj from_.toKey with
  | none => none
  | some l => (l.find? (fun s => s.node = to_)).map (·.weight)

/-- `getNodes()`. -/
def Graph.getNodes (g : Graph) : List NodeId :=
  g.nodesList

/-- `nodeCount`. -/
def Graph.nodeCount (g : Graph) : Nat :=
  g.nodesList.length

/-- `totalEdgeCount`: the raw counter for directed graphs, half of it for
undirected graphs (JavaScript `/` is exact division, modelled in `ℚ`). -/
def Graph.totalEdgeCount (g : Graph) : ℚ :=
  if g.config.directed then (g.edgeCount : ℚ) else (g.edgeCount : ℚ) / 2

/-- `isDirected`. -/
def Graph.isDirected (g : Graph) : Bool :=
  g.config.directed

/-- `isWeighted`. -/
def Graph.isWeighted (g : Graph) : Bool :=
  g.config.weighted

/-- `configuration` (a copy of the config record). -/
def Graph.configuration (g : Graph) : GraphConfig :=
  g.config

/-- The number of directed neighbor-list slots currently stored in the
adjacency object (each undirected edge occupies two of them). -/
def Graph.slotCount (g : Graph) : Nat :=
  (g.adj.map (fun p => p.2.length)).sum

/-- The directed canonical edge key `from + "->" + to` used by `getEdges`. -/
def dirKey (a b : NodeId) : String :=
  a.toKey ++ "->" ++ b.toKey

/-- The undirected canonical edge key `[from, to].sort().join("-")`: the
default array sort compares the string renderings, so the two string keys are
joined in nondecreasing order. -/
def undirKey (a b : NodeId) : String :=
  if a.toKey ≤ b.toKey then a.toKey ++ "-" ++ b.toKey else b.toKey ++ "-" ++ a.toKey

/-- The canonical deduplication key used by `getEdges` for one slot. -/
def Graph.edgeKey (g : Graph) (a b : NodeId) : String :=
  if g.config.directed then dirKey a b else undirKey a b

/-- The slots of the adjacency object in the iteration order of `getEdges`:
nodes in set-insertion order, each paired with its neighbor list in order. -/
def Graph.slotEntries (g : Graph) : List (NodeId × Slot) :=
  g.nodesList.flatMap (fun u => (g.getNeighbors u).map (fun s => (u, s)))

/-- The `seen`-set scan of `getEdges`: emit an item the first time its key is
encountered, skip later occurrences of the same key. -/
def dedupPairs {α : Type} : List (α × String) → List String → List (α × String)
  | [], _ => []
  | (e, k) :: rest, seen =>
    if k ∈ seen then dedupPairs rest seen
    else (e, k) :: dedupPairs rest (k :: seen)

/-- `getEdges()`: walk every slot in iteration order, deduplicate by the
canonical key, and report a weight exactly equal to 1 as absent. -/
def Graph.getEdges (g : Graph) : List Edge :=
  (dedupPairs
    (g.slotEntries.map (fun p =>
      (⟨p.1, p.2.node, if p.2.weight = 1 then none else some p.2.weight⟩,
        g.edgeKey p.1 p.2.node)))
    []).map (·.1)

/-- The `{ inDegree, outDegree, degree }` record of `getDegree`. -/
structure Degree where
  inDegree : Nat
  outDegree : Nat
  degree : Nat
deriving DecidableEq, Repr, Inhabited

/-- `getDegree(id)`: out-degree is the neighbor-list length; for directed
graphs the in-degree scans every node for an edge targeting `id` and the
degree is their sum, otherwise all three coincide. -/
def Graph.getDegree (g : Graph) (id : NodeId) : Degree :=
  let outDegree := ((objGet g.adj id.toKey).getD []).length
  let inDegree :=
    if g.config.directed then (g.nodesList.filter (fun u => g.hasEdge u id)).length
    else outDegree
  { inDegree := inDegree
    outDegree := outDegree
    degree := if g.config.directed then inDegree + outDegree else outDegree }

/-!  The edge-notation text converter (`parser.ts`).  Its internals are
modelled over `List Char`; JavaScript regular-expression semantics are
rendered by explicit first-occurrence scans. -/

/-- JavaScript whitespace as far as `trim()` is exercised here. -/
def wsChar (c : Char) : Bool :=
  c = ' ' ∨ c = '\t' ∨ c = '\n' ∨ c = '\r'

/-- `trim()` on a character list. -/
def trimChars (cs : List Char) : List Char :=
  ((cs.dropWhile wsChar).reverse.dropWhile wsChar).reverse

/-- Split on every separator character (`split(/[,;\n]+/)` up to the empty
pieces, which the caller discards after trimming anyway). -/
def splitOnChars (p : Char → Bool) (cs : List Char) : List (List Char) :=
  match cs with
  | [] => [[]]
  | c :: rest =>
    let r := splitOnChars p rest
    if p c then [] :: r
    else match r with
      | [] => [[c]]
      | piece :: more => (c :: piece) :: more

/-- The lazy-prefix match `^(.+?)SEP(.+)$`: the first occurrence of the
separator token with a nonempty prefix before it and a nonempty suffix after
it, as a JavaScript lazy regular expression finds it. -/
def splitFirstTok (sep : List Char) (acc : List Char) : List Char → Option (List Char × List Char)
  | [] => none
  | c :: rest =>
    if sep.isPrefixOf rest ∧ rest.drop sep.length ≠ [] ∧ (acc ++ [c]) ≠ [] then
      some (acc ++ [c], rest.drop sep.length)
    else
      splitFirstTok sep (acc ++ [c]) rest

/-- The lazy-prefix match `^(.+?)[cls](.+)$` for a character class. -/
def splitFirstCls (cls : List Char) (acc : List Char) : List Char → Option (List Char × List Char)
  | [] => none
  | c :: rest =>
    if cls.contains c ∧ rest ≠ [] ∧ acc ≠ [] then some (acc, rest)
    else splitFirstCls cls (acc ++ [c]) rest

/-- Decimal digit test. -/
def isDigitCh (c : Char) : Bool :=
  '0' ≤ c ∧ c ≤ '9'

/-- Digits to a natural number, most significant first. -/
def digitsToNat (cs : List Char) : Nat :=
  cs.foldl (fun acc c => acc * 10 + (c.toNat - '0'.toNat)) 0

/-- Does this string render canonically as a JavaScript integer (so that
`String(parseFloat(id)) === id`)?  `"0"`, or an optional minus sign followed
by digits without a leading zero; `"-0"` renders as `"0"` and fails. -/
def isCanonicalIntString (cs : List Char) : Bool :=
  match cs with
  | [] => false
  | '0' :: rest => rest = []
  | '-' :: rest =>
    (match rest with
     | [] => false
     | '0' :: _ => false
     | d :: more => isDigitCh d ∧ more.all isDigitCh)
  | d :: more => isDigitCh d ∧ more.all isDigitCh

/-- The integer value of a canonical integer string. -/
def intOfCanonical (cs : List Char) : Int :=
  match cs with
  | '-' :: rest => -(digitsToNat rest : Int)
  | _ => (digitsToNat cs : Int)

/-- `parseNodeId(id)`: a token that parses fully as a number becomes a
numeric id, the empty token errors, anything else stays a string.  Numeric
literals are modelled for integers (the only numeric form the claims use);
non-canonical numeric spellings fall through to the string case. -/
def parseNodeId (cs : List Char) : Except String NodeId :=
  if isCanonicalIntString cs then .ok (.num (intOfCanonical cs))
  else if cs.length = 0 then .error "Empty node ID"
  else .ok (.str (String.mk cs))

/-- `parseFloat` on a trimmed weight token: an optional sign, then an integer
part and/or a decimal part; trailing junk is ignored exactly as `parseFloat`
ignores it; `none` models `NaN`. -/
def parseLeadingRat (cs : List Char) : Option ℚ :=
  let (sign, body) : ℚ × List Char :=
    match cs with
    | '-' :: rest => (-1, rest)
    | '+' :: rest => (1, rest)
    | _ => (1, cs)
  let intPart := body.takeWhile isDigitCh
  let afterInt := body.drop intPart.length
  let (fracPart, _) : List Char × List Char :=
    match afterInt with
    | '.' :: rest => (rest.takeWhile isDigitCh, rest)
    | _ => ([], afterInt)
  if intPart = [] ∧ fracPart = [] then none
  else
    some (sign * ((digitsToNat intPart : ℚ) +
      (digitsToNat fracPart : ℚ) / ((10 : ℚ) ^ fracPart.length)))

/-- The `ParsedEdge` record returned by one segment parse. -/
structure ParsedEdge where
  from_ : NodeId
  to_ : NodeId
  weight : Option ℚ
  isDirected : Option Bool
deriving DecidableEq, Repr, Inhabited

/-- `parseEdgeSegment(segment, defaultWeight)`: split off a `:`/`=` weight
suffix first (erroring on an unparseable weight), then try the `->` rule,
then the `-` rule, then the `<->` rule, in exactly the order the source tries
its regular expressions.  The `defaultWeight` parameter is accepted and, as
in the source, never used. -/
def parseEdgeSegment (segment : String) (defaultWeight : ℚ) : Except String ParsedEdge :=
  let cs := segment.toList
  let (edgePart, weightRes) : List Char × Except String (Option ℚ) :=
    match splitFirstCls [':', '='] [] cs with
    | some (before, after) =>
      let weightStr := trimChars after
      (trimChars before,
        match parseLeadingRat weightStr with
        | some w => .ok (some w)
        | none => .error ("Invalid weight: \"" ++ String.mk weightStr ++ "\""))
    | none => (cs, .ok none)
  match weightRes with
  | .error msg => .error msg
  | .ok weight =>
    match splitFirstTok ['-', '>'] [] edgePart with
    | some (before, after) => do
      let from_ ← parseNodeId (trimChars before)
      let to_ ← parseNodeId (trimChars after)
      .ok { from_ := from_, to_ := to_, weight := weight, isDirected := some true }
    | none =>
      match splitFirstTok ['-'] [] edgePart with
      | some (before, after) => do
        let from_ ← parseNodeId (trimChars before)
        let to_ ← parseNodeId (trimChars after)
        .ok { from_ := from_, to_ := to_, weight := weight, isDirected := some false }
      | none =>
        match splitFirstTok ['<', '-', '>'] [] edgePart with
        | some (before, after) => do
          let from_ ← parseNodeId (trimChars before)
          let to_ ← parseNodeId (trimChars after)
          .ok { from_ := from_, to_ := to_, weight := weight, isDirected := some false }
        | none =>
          .error ("Invalid edge format: \"" ++ segment ++
            "\". Use formats like \"1-2\", \"1->2\", or \"1-2:5\"")

/-- The `ParseResult` record. -/
structure ParseResult where
  edges : List Edge
  errors : List String
  warnings : List String
deriving DecidableEq, Repr, Inhabited

/-- `parseEdgeInput(input, options)`: split into segments, parse each
independently collecting per-line errors, and warn once when directed and
undirected notation are mixed without an explicit directed request. -/
def parseEdgeInput (input : String) (assumeDirected : Bool) (defaultWeight : ℚ) : ParseResult :=
  let segments := ((splitOnChars (fun c => c = ',' ∨ c = ';' ∨ c = '\n')
    input.toList).map trimChars).filter (fun s => s ≠ [])
  if segments.length = 0 then
    { edges := [], errors := ["No edges provided"], warnings := [] }
  else
    let step := fun (st : List Edge × List String × Bool × Bool × Nat) (seg : List Char) =>
      let (edges, errors, hasDir, hasUndir, i) := st
      match parseEdgeSegment (String.mk seg) defaultWeight with
      | .ok e =>
        (edges ++ [⟨e.from_, e.to_, e.weight⟩], errors,
          hasDir ∨ e.isDirected = some true, hasUndir ∨ e.isDirected = some false, i + 1)
      | .error msg =>
        (edges, errors ++ ["Line " ++ toString i ++ ": " ++ msg], hasDir, hasUndir, i + 1)
    let (edges, errors, hasDir, hasUndir, _) := segments.foldl step ([], [], false, false, 1)
    let warnings :=
      if hasDir ∧ hasUndir ∧ ¬assumeDirected then
        ["Mixed directed (->) and undirected (-) notation detected. Treating all as " ++
          (if assumeDirected then "directed" else "undirected")]
      else []
    { edges := edges, errors := errors, warnings := warnings }

/-- Extract the success value of an `Except`, with a fallback for the error
case (used only to name concrete successfully-built graphs). -/
def okD {α : Type} (e : Except String α) (d : α) : α :=
  match e with
  | .ok a => a
  | .error _ => d

/-- A node record of the storage shape; the optional `label`/`metadata`
fields are never read or written by the conversion functions and are
omitted. -/
structure NodeRec where
  id : NodeId
deriving DecidableEq, Repr, Inhabited

/-- The serializable `GraphData` record. -/
structure GraphData where
  id : String
  name : String
  description : Option String
  nodes : List NodeRec
  edges : List Edge
  config : GraphConfig
  createdAt : String
  updatedAt : String
deriving DecidableEq, Repr, Inhabited

/-- Fold `addEdge` over a list of edges, propagating a thrown error. -/
def Graph.addEdges (g : Graph) (es : List Edge) : Except String Graph :=
  es.foldlM Graph.addEdge g

/-- `buildGraphFromData(data)`: a fresh graph with the record's
configuration, all nodes added, then all edges added. -/
def buildGraphFromData (data : GraphData) : Except String Graph :=
  (data.nodes.foldl (fun g n => g.addNode n.id) (Graph.init data.config)).addEdges data.edges

/-- `graphToData(graph, id, name, description)`: the timestamp produced by
`new Date().toISOString()` is abstracted as the extra `now` argument. -/
def graphToData (graph : Graph) (id name : String) (description : Option String)
    (now : String) : GraphData :=
  { id := id
    name := name
    description := description
    nodes := graph.getNodes.map (fun nodeId => ⟨nodeId⟩)
    edges := graph.getEdges
    config := graph.configuration
    createdAt := now
    updatedAt := now }

/-- The `{ graph, errors, warnings }` record of `buildGraphFromEdges`. -/
structure BuildResult where
  graph : Graph
  errors : List String
  warnings : List String
deriving DecidableEq, Repr, Inhabited

/-- `buildGraphFromEdges(edgeInput, directed, weighted)`: parse, and on any
parse error return an empty graph with the errors; otherwise add every parsed
edge (self-loops are allowed by this configuration, so `addEdge` cannot
throw; a throw would propagate, as the source does not catch). -/
def buildGraphFromEdges (edgeInput : String) (directed weighted : Bool) :
    Except String BuildResult :=
  let parseResult := parseEdgeInput edgeInput directed 1
  let config : GraphConfig :=
    { directed := directed, weighted := weighted, allowSelfLoops := true,
      allowMultipleEdges := false }
  if parseResult.errors.length > 0 then
    .ok { graph := Graph.init config, errors := parseResult.errors,
          warnings := parseResult.warnings }
  else do
    let g ← (Graph.init config).addEdges parseResult.edges
    .ok { graph := g, errors := [], warnings := parseResult.warnings }

/-!  Structural classifiers and metrics.  The iterative stack loops and the
recursive component DFS are given a fuel argument that strictly exceeds the
number of loop iterations on every graph the claims evaluate them on; each
top-level entry point supplies such a fuel. -/

/-- Generous fuel for the bounded traversal loops of one graph. -/
def Graph.loopFuel (g : Graph) : Nat :=
  (g.slotCount + 2) * (g.nodesList.length + 2)

/-- The explicit-stack reachability loop shared by `isCycle`, `isPath` and
`isTree`: pop, skip if visited, else visit and push the unvisited neighbors
(a JavaScript array used as a stack pops from the end, so pushed neighbors
sit above the remaining stack in reverse order). -/
def Graph.reachLoop (g : Graph) : Nat → List NodeId → List NodeId → List NodeId
  | 0, _, visited => visited
  | _ + 1, [], visited => visited
  | fuel + 1, current :: stack, visited =>
    if current ∈ visited then g.reachLoop fuel stack visited
    else
      let visited' := visited ++ [current]
      let pushes := ((g.getNeighbors current).filter
        (fun s => s.node ∉ visited')).map (·.node)
      g.reachLoop fuel (pushes.reverse ++ stack) visited'

/-- The recursive `dfsVisit` helper of the connectivity module, rendered as
an explicit frame stack: each frame is the list of neighbor slots a recursive
call has not yet scanned. -/
def Graph.dfsVisitFrames (g : Graph) : Nat → List (List Slot) → List NodeId → List NodeId
  | 0, _, visited => visited
  | _ + 1, [], visited => visited
  | fuel + 1, [] :: fs, visited => g.dfsVisitFrames fuel fs visited
  | fuel + 1, (s :: rest) :: fs, visited =>
    if s.node ∈ visited then g.dfsVisitFrames fuel (rest :: fs) visited
    else g.dfsVisitFrames fuel (g.getNeighbors s.node :: rest :: fs) (visited ++ [s.node])

/-- `isConnected(graph)`: vacuously true on zero nodes, else one recursive
DFS from the first node must visit every node. -/
def Graph.isConnected (g : Graph) : Bool :=
  if g.nodeCount = 0 then true
  else
    match g.nodesList with
    | [] => true
    | current :: rest =>
      (g.dfsVisitFrames g.loopFuel [g.getNeighbors current] [current]).length =
        g.nodeCount + 0 * rest.length

/-- `isComplete(graph)`: degree `n-1` everywhere (both directions for a
directed graph). -/
def Graph.isComplete (g : Graph) : Bool :=
  let nodes := g.nodesList
  let n := nodes.length
  if n ≤ 1 then true
  else nodes.all (fun node =>
    let degree := g.getDegree node
    if g.isDirected then degree.inDegree = n - 1 ∧ degree.outDegree = n - 1
    else degree.degree = n - 1)

/-- `isCycle(graph)`: at least three nodes, every degree exactly 2, and the
explicit-stack sweep from the first node reaches all nodes. -/
def Graph.isCycle (g : Graph) : Bool :=
  let nodes := g.nodesList
  let n := nodes.length
  if n < 3 then false
  else if nodes.all (fun node => (g.getDegree node).degree = 2) then
    match nodes with
    | [] => false
    | current :: rest => (g.reachLoop g.loopFuel [current] []).length = n + 0 * rest.length
  else false

/-- `calculateDensity(graph)`: `0` for at most one node, else the edge count
over `n(n-1)`, doubled for undirected graphs. -/
def calculateDensity (g : Graph) : ℚ :=
  let n := g.nodeCount
  if n ≤ 1 then 0
  else
    let maxEdges : ℚ := (n : ℚ) * ((n : ℚ) - 1)
    let actualEdges := g.totalEdgeCount
    if g.isDirected then actualEdges / maxEdges else 2 * actualEdges / maxEdges

/-!  The DFS pair of the traversal module.  Both are total, terminating
functions: the termination measure counts the not-yet-visited members of a
fixed finite universe (all nodes plus all slot targets of the graph, plus the
pending work list), which shrinks at every visit. -/

/-- Every slot target stored anywhere in the adjacency object. -/
def Graph.allTargets (g : Graph) : List NodeId :=
  g.adj.flatMap (fun p => p.2.map (·.node))

/-- The fixed finite universe used by the traversal termination measures. -/
def Graph.univFin (g : Graph) : Finset NodeId :=
  g.nodesList.toFinset ∪ g.allTargets.toFinset

/-- Unvisited universe members reachable from the pending work list. -/
def Graph.travMeasure (g : Graph) (pending : List NodeId) (visited : List NodeId) : Nat :=
  ((pending.toFinset ∪ g.univFin) \ visited.toFinset).card

lemma objGet_mem {α : Type} :
    ∀ (m : List (String × α)) (k : String) (v : α), objGet m k = some v → (k, v) ∈ m := by
  intro m
  induction m with
  | nil => intro k v h; simp [objGet] at h
  | cons p rest ih =>
    intro k v h
    obtain ⟨k', v'⟩ := p
    rw [objGet] at h
    by_cases hk : k' = k
    · rw [if_pos hk] at h
      subst hk
      injection h with h
      subst h
      exact List.mem_cons_self _ _
    · rw [if_neg hk] at h
      exact List.mem_cons_of_mem _ (ih k v h)

lemma getNeighbors_sub_targets (g : Graph) (v : NodeId) :
    ∀ s ∈ g.getNeighbors v, s.node ∈ g.allTargets := by
  intro s hs
  rw [Graph.getNeighbors] at hs
  rcases h : objGet g.adj v.toKey with _ | l
  · rw [h] at hs; simp at hs
  · rw [h] at hs
    simp only [Option.getD_some] at hs
    have hmem := objGet_mem g.adj v.toKey l h
    simp only [Graph.allTargets, List.mem_flatMap]
    exact ⟨(v.toKey, l), hmem, List.mem_map_of_mem _ hs⟩

lemma travMeasure_mono (g : Graph) {s₁ s₂ : List NodeId}
    (hsub : ∀ x ∈ s₁, x ∈ s₂ ∨ x ∈ g.univFin) {v₁ v₂ : List NodeId}
    (hvis : ∀ x ∈ v₂, x ∈ v₁) :
    g.travMeasure s₁ v₁ ≤ g.travMeasure s₂ v₂ := by
  apply Finset.card_le_card
  intro x hx
  simp only [Graph.travMeasure, Finset.mem_sdiff, Finset.mem_union, List.mem_toFinset] at hx ⊢
  obtain ⟨h1, h2⟩ := hx
  refine ⟨?_, fun hx2 => h2 (hvis x hx2)⟩
  rcases h1 with h1 | h1
  · rcases hsub x h1 with h | h
    · exact Or.inl h
    · exact Or.inr h
  · exact Or.inr h1

lemma travMeasure_visit_lt (g : Graph) (current : NodeId) (rest pushes visited : List NodeId)
    (hcur : current ∉ visited) (hp : ∀ x ∈ pushes, x ∈ g.univFin) :
    g.travMeasure (pushes ++ rest) (visited ++ [current]) <
      g.travMeasure (current :: rest) visited := by
  apply Finset.card_lt_card
  constructor
  · intro x hx
    simp only [Graph.travMeasure, Finset.mem_sdiff, Finset.mem_union, List.mem_toFinset,
      List.mem_append, List.mem_cons, List.mem_singleton, not_or] at hx ⊢
    obtain ⟨h1, h2, h3⟩ := hx
    refine ⟨?_, h2⟩
    rcases h1 with h1 | h1
    · rcases h1 with h1 | h1
      · exact Or.inr (hp x h1)
      · exact Or.inl (Or.inr h1)
    · exact Or.inr h1
  · intro hsub
    have hc : current ∈ ((current :: rest).toFinset ∪ g.univFin) \ visited.toFinset :=
      Finset.mem_sdiff.mpr
        ⟨Finset.mem_union_left _ (List.mem_toFinset.mpr (List.mem_cons_self current rest)),
          fun hmem => hcur (List.mem_toFinset.mp hmem)⟩
    have hc2 := hsub hc
    rw [Finset.mem_sdiff] at hc2
    exact hc2.2 (by simp)

/-- The reference pending-list DFS used to relate the two source variants:
pop, skip when visited, else emit and prepend all neighbor targets
(visitedness of pushed entries is rechecked at pop time). -/
def Graph.dfsSpecL (g : Graph) (pending : List NodeId) (visited : List NodeId) : List NodeId :=
  match pending with
  | [] => []
  | current :: rest =>
    if current ∈ visited then g.dfsSpecL rest visited
    else
      current :: g.dfsSpecL (((g.getNeighbors current).map (·.node)) ++ rest)
        (visited ++ [current])
termination_by (g.travMeasure pending visited, pending.length)
decreasing_by
· have hle : g.travMeasure rest visited ≤ g.travMeasure (current :: rest) visited :=
    travMeasure_mono g (fun x hx => Or.inl (List.mem_cons_of_mem current hx)) (fun x hx => hx)
  rcases lt_or_eq_of_le hle with h | h
  · exact Prod.Lex.left _ _ h
  · rw [h]
    exact Prod.Lex.right _ (Nat.lt_succ_self _)
· apply Prod.Lex.left
  apply travMeasure_visit_lt g current rest _ visited (by assumption)
  intro x hx
  simp only [List.mem_map] at hx
  obtain ⟨s, hs, rfl⟩ := hx
  exact Finset.mem_union_right _
    (List.mem_toFinset.mpr (getNeighbors_sub_targets g current s hs))

/-- `dfsIterative(graph, start)`, inner loop: the source pushes the unvisited
neighbors in reverse adjacency order onto the end-popping array, so in the
head-popping list model the filtered neighbor targets sit in adjacency order
above the remaining stack.  The emitted list is the `order` output. -/
def Graph.dfsIterAux (g : Graph) (stack : List NodeId) (visited : List NodeId) : List NodeId :=
  match stack with
  | [] => []
  | current :: rest =>
    if current ∈ visited then g.dfsIterAux rest visited
    else
      let visited' := visited ++ [current]
      current :: g.dfsIterAux
        ((((g.getNeighbors current).map (·.node)).filter (fun n => n ∉ visited')) ++ rest)
        visited'
termination_by (g.travMeasure stack visited, stack.length)
decreasing_by
· have hle : g.travMeasure rest visited ≤ g.travMeasure (current :: rest) visited :=
    travMeasure_mono g (fun x hx => Or.inl (List.mem_cons_of_mem current hx)) (fun x hx => hx)
  rcases lt_or_eq_of_le hle with h | h
  · exact Prod.Lex.left _ _ h
  · rw [h]
    exact Prod.Lex.right _ (Nat.lt_succ_self _)
· apply Prod.Lex.left
  apply travMeasure_visit_lt g current rest _ visited (by assumption)
  intro x hx
  simp only [List.mem_filter, List.mem_map] at hx
  obtain ⟨⟨s, hs, rfl⟩, _⟩ := hx
  exact Finset.mem_union_right _ (List.mem_toFinset.mpr (getNeighbors_sub_targets g current s hs))

/-- `dfsIterative(graph, start)`: the `order` sequence (step recording does
not influence it and is omitted). -/
def dfsIterative (g : Graph) (start : NodeId) : List NodeId :=
  g.dfsIterAux [start] []

/-- The targets of a frame stack, in scan order. -/
def framesTargets (frames : List (List Slot)) : List NodeId :=
  frames.flatMap (fun f => f.map (·.node))

/-- The frame count plus pending-slot count of a frame stack. -/
def framesSize (frames : List (List Slot)) : Nat :=
  (frames.map List.length).sum + frames.length

/-- The recursive `dfs` of the source, with its shared mutable
`visited`/`order` state rendered as an explicit frame stack: each frame holds
the neighbor slots one active recursive call has not yet scanned.  Because a
node enters `visited` exactly when it enters `order`, the insertion-ordered
visited list returned here is the `order` output. -/
def Graph.dfsFrames (g : Graph) (frames : List (List Slot)) (visited : List NodeId) :
    List NodeId :=
  match frames with
  | [] => visited
  | [] :: fs => g.dfsFrames fs visited
  | (s :: rest) :: fs =>
    if s.node ∈ visited then g.dfsFrames (rest :: fs) visited
    else g.dfsFrames (g.getNeighbors s.node :: rest :: fs) (visited ++ [s.node])
termination_by (g.travMeasure (framesTargets frames) visited, framesSize frames)
decreasing_by
· have hshape : framesTargets ([] :: fs) = framesTargets fs := by
    simp [framesTargets]
  have hle : g.travMeasure (framesTargets fs) visited ≤
      g.travMeasure (framesTargets ([] :: fs)) visited := by
    rw [hshape]
  rcases lt_or_eq_of_le hle with h | h
  · exact Prod.Lex.left _ _ h
  · rw [h]
    exact Prod.Lex.right _ (by simp [framesSize, Nat.lt_succ_self])
· have hshape : framesTargets ((s :: rest) :: fs) =
      s.node :: framesTargets (rest :: fs) := by
    simp [framesTargets]
  have hle : g.travMeasure (framesTargets (rest :: fs)) visited ≤
      g.travMeasure (framesTargets ((s :: rest) :: fs)) visited := by
    rw [hshape]
    exact travMeasure_mono g (fun x hx => Or.inl (List.mem_cons_of_mem _ hx))
      (fun x hx => hx)
  rcases lt_or_eq_of_le hle with h | h
  · exact Prod.Lex.left _ _ h
  · rw [h]
    apply Prod.Lex.right
    simp only [framesSize, List.map_cons, List.sum_cons, List.length_cons]
    omega
· apply Prod.Lex.left
  have hshape : framesTargets ((s :: rest) :: fs) =
      s.node :: (framesTargets (rest :: fs)) := by
    simp [framesTargets]
  rw [hshape]
  have hshape2 : framesTargets (g.getNeighbors s.node :: rest :: fs) =
      ((g.getNeighbors s.node).map (·.node)) ++ framesTargets (rest :: fs) := by
    simp [framesTargets]
  rw [hshape2]
  apply travMeasure_visit_lt g s.node _ _ visited (by assumption)
  intro x hx
  simp only [List.mem_map] at hx
  obtain ⟨t, ht, rfl⟩ := hx
  exact Finset.mem_union_right _ (List.mem_toFinset.mpr (getNeighbors_sub_targets g s.node t ht))

/-- `dfs(graph, start)`: the recursive variant's `order` sequence.  The
source visits `start` unconditionally and then scans its neighbors. -/
def dfs (g : Graph) (start : NodeId) : List NodeId :=
  g.dfsFrames [g.getNeighbors start] [start]

/-!  Bellman-Ford.  The two distance/predecessor `Map`s are modelled as
functions updated pointwise; a node the source never put in the map reads as
`⊤`/`none` here where JavaScript would read `undefined` (both make every
relaxation guard false, so the guarded behavior agrees). -/

/-- The `{ path, distance }` record of a shortest-path result. -/
structure PathResult where
  path : List NodeId
  distance : WithTop ℚ
deriving DecidableEq, Repr, Inhabited

/-- One pass of `for (const edge of edges)` relaxation, threading the live
distance and predecessor maps. -/
def relaxPass (edges : List Edge)
    (st : (NodeId → WithTop ℚ) × (NodeId → Option NodeId)) :
    (NodeId → WithTop ℚ) × (NodeId → Option NodeId) :=
  edges.foldl
    (fun st e =>
      let dist := st.1
      let prev := st.2
      let w : ℚ := e.weight.getD 1
      if dist e.from_ + (w : WithTop ℚ) < dist e.to_ then
        (fun v => if v = e.to_ then dist e.from_ + (w : WithTop ℚ) else dist v,
         fun v => if v = e.to_ then some e.from_ else prev v)
      else st)
    st

/-- The distance/predecessor state after the `V-1` relaxation rounds: every
node starts at `Infinity`, then `start` is set to `0`. -/
def bfRelaxed (g : Graph) (start : NodeId) :
    (NodeId → WithTop ℚ) × (NodeId → Option NodeId) :=
  (List.range (g.nodesList.length - 1)).foldl
    (fun st _ => relaxPass g.getEdges st)
    (fun v => if v = start then 0 else ⊤, fun _ => none)

/-- The negative-cycle detection condition of the final pass: some edge can
still be relaxed after `V-1` rounds. -/
def detectsNegativeCycle (g : Graph) (start : NodeId) : Prop :=
  ∃ e ∈ g.getEdges,
    (bfRelaxed g start).1 e.from_ + ((e.weight.getD 1 : ℚ) : WithTop ℚ) <
      (bfRelaxed g start).1 e.to_

instance (g : Graph) (start : NodeId) : Decidable (detectsNegativeCycle g start) := by
  unfold detectsNegativeCycle
  infer_instance

/-- The backwards walk of `reconstructPath`: unshift the current node, stop
at `start` or when the predecessor map runs out; the fuel strictly exceeds
any predecessor-chain length arising from the relaxation rounds. -/
def walkPath (previous : NodeId → Option NodeId) (start : NodeId) :
    Nat → NodeId → List NodeId → List NodeId
  | 0, current, path => current :: path
  | fuel + 1, current, path =>
    let path' := current :: path
    if current = start then path'
    else
      match previous current with
      | none => path'
      | some p => walkPath previous start fuel p path'

/-- `reconstructPath(previous, start, end)`: walk back from the target and
return the empty path when the walk did not reach `start`. -/
def reconstructPath (previous : NodeId → Option NodeId) (start end_ : NodeId)
    (fuel : Nat) : List NodeId :=
  let path := walkPath previous start fuel end_ []
  if path.head? = some start then path else []

/-- `bellmanFord(graph, start)`: `V-1` relaxation rounds over the
deduplicated edge list, one detection pass, and `null` (`none`) exactly when
the detection pass fires; otherwise the per-node `{ path, distance }` map in
node order, skipping `start`. -/
def bellmanFord (g : Graph) (start : NodeId) : Option (List (NodeId × PathResult)) :=
  let st := bfRelaxed g start
  let dist := st.1
  let prev := st.2
  if g.getEdges.any (fun e =>
      decide (dist e.from_ + ((e.weight.getD 1 : ℚ) : WithTop ℚ) < dist e.to_)) then
    none
  else
    some ((g.nodesList.filter (fun v => v ≠ start)).map (fun v =>
      (v, { path := reconstructPath prev start v (g.nodesList.length + 1)
            distance := dist v })))

/-!  Spanning trees.  Only the directed-graph precondition guard is the
subject of a claim; the bodies are embedded for completeness (step recording,
which never changes the returned edges or weight, is omitted, and union-find
path compression, which never changes a `find` result, is omitted). -/

/-- The `{ edges, totalWeight }` record of a spanning-tree result. -/
structure SpanningTreeResult where
  edges : List Edge
  totalWeight : ℚ
deriving DecidableEq, Repr, Inhabited

/-- First-match lookup in a `Map` keyed by node ids. -/
def lookupNode {α : Type} : List (NodeId × α) → NodeId → Option α
  | [], _ => none
  | p :: rest, t => if p.1 = t then some p.2 else lookupNode rest t

/-- `Map.set` keyed by node ids: overwrite in place or append. -/
def setNode {α : Type} : List (NodeId × α) → NodeId → α → List (NodeId × α)
  | [], k, v => [(k, v)]
  | p :: rest, k, v =>
    if p.1 = k then (k, v) :: rest else p :: setNode rest k v

lemma lookupNode_append_of_some {α : Type} :
    ∀ (m₁ m₂ : List (NodeId × α)) (k : NodeId) (v : α),
      lookupNode m₁ k = some v → lookupNode (m₁ ++ m₂) k = some v := by
  intro m₁
  induction m₁ with
  | nil => intro m₂ k v h; simp [lookupNode] at h
  | cons p rest ih =>
    intro m₂ k v h
    rw [List.cons_append]
    rw [lookupNode] at h ⊢
    by_cases hp : p.1 = k
    · rw [if_pos hp] at h ⊢
      exact h
    · rw [if_neg hp] at h ⊢
      exact ih m₂ k v h

lemma lookupNode_none_not_mem {α : Type} :
    ∀ (m : List (NodeId × α)) (k : NodeId), lookupNode m k = none → k ∉ m.map (·.1) := by
  intro m
  induction m with
  | nil => intro k _ h; simp at h
  | cons p rest ih =>
    intro k h hmem
    rw [lookupNode] at h
    by_cases hp : p.1 = k
    · rw [if_pos hp] at h
      exact Option.noConfusion h
    · rw [if_neg hp] at h
      rcases List.mem_cons.mp hmem with hmem | hmem
      · exact hp hmem.symm
      · exact ih k h hmem

/-- Union-find `find` by chasing parent pointers (fuelled; path compression
omitted as it never changes the returned root). -/
def ufFind (parent : List (NodeId × NodeId)) : Nat → NodeId → NodeId
  | 0, v => v
  | fuel + 1, v =>
    match lookupNode parent v with
    | none => v
    | some p => if p = v then v else ufFind parent fuel p

/-- Union-find `union` with union by rank; returns the updated structure and
whether a merge happened. -/
def ufUnion (parent : List (NodeId × NodeId)) (rank : List (NodeId × Nat))
    (fuel : Nat) (a b : NodeId) :
    (List (NodeId × NodeId) × List (NodeId × Nat)) × Bool :=
  let root1 := ufFind parent fuel a
  let root2 := ufFind parent fuel b
  if root1 = root2 then ((parent, rank), false)
  else
    let rank1 := (lookupNode rank root1).getD 0
    let rank2 := (lookupNode rank root2).getD 0
    if rank1 < rank2 then ((setNode parent root1 root2, rank), true)
    else if rank2 < rank1 then ((setNode parent root2 root1, rank), true)
    else ((setNode parent root2 root1, setNode rank root1 (rank1 + 1)), true)

/-- Stable insertion keeping existing elements of no greater weight first
(the stable ascending sort of the source). -/
def insertByWeight (e : Edge) : List Edge → List Edge
  | [] => [e]
  | x :: rest =>
    if x.weight.getD 1 ≤ e.weight.getD 1 then x :: insertByWeight e rest
    else e :: x :: rest

/-- Stable ascending sort of the edge list by weight (default 1). -/
def sortEdgesByWeight (es : List Edge) : List Edge :=
  es.foldl (fun acc e => insertByWeight e acc) []

/-- `kruskal(graph)`: fails on directed graphs before any computation;
otherwise scans the weight-sorted edges, accepting each edge whose endpoints
have different union-find roots, stopping after `n-1` acceptances. -/
def kruskal (g : Graph) : Except String SpanningTreeResult :=
  if g.isDirected then
    .error "Kruskal\x27s algorithm only works on undirected graphs"
  else
    let nodes := g.getNodes
    let sortedEdges := sortEdgesByWeight g.getEdges
    let fuel := nodes.length + 1
    let final := sortedEdges.foldl
      (fun (st : (List (NodeId × NodeId) × List (NodeId × Nat)) × List Edge × ℚ × Bool) e =>
        let (uf, mst, tw, done) := st
        if done then st
        else if ufFind uf.1 fuel e.from_ ≠ ufFind uf.1 fuel e.to_ then
          let uf' := (ufUnion uf.1 uf.2 fuel e.from_ e.to_).1
          let mst' := mst ++ [e]
          (uf', mst', tw + e.weight.getD 1, mst'.length = nodes.length - 1)
        else st)
      ((nodes.map (fun v => (v, v)), nodes.map (fun v => (v, 0))), [], 0, false)
    .ok { edges := final.2.1, totalWeight := final.2.2.1 }

/-- Stable insertion for the re-sorted priority list of `prim`. -/
def insertByPriority (x : Edge × ℚ) : List (Edge × ℚ) → List (Edge × ℚ)
  | [] => [x]
  | y :: rest =>
    if y.2 ≤ x.2 then y :: insertByPriority x rest
    else x :: y :: rest

/-- The stable ascending re-sort of the priority list. -/
def sortPQ (pq : List (Edge × ℚ)) : List (Edge × ℚ) :=
  pq.foldl (fun acc x => insertByPriority x acc) []

/-- The `while` loop of `prim`: re-sort, shift the minimum candidate, skip it
when its target is already spanned, else accept it and enqueue the fresh
edges of the new node.  The fuel strictly exceeds the number of pushes any
graph can make. -/
def Graph.primLoop (g : Graph) (nodesLen : Nat) :
    Nat → List (Edge × ℚ) → List NodeId → List Edge → ℚ → List Edge × ℚ
  | 0, _, _, mst, tw => (mst, tw)
  | fuel + 1, pq, visited, mst, tw =>
    if pq.length = 0 ∨ ¬visited.length < nodesLen then (mst, tw)
    else
      match sortPQ pq with
      | [] => (mst, tw)
      | (e, w) :: restPq =>
        if e.to_ ∈ visited then g.primLoop nodesLen fuel restPq visited mst tw
        else
          let visited' := visited ++ [e.to_]
          let pushes := ((g.getNeighbors e.to_).filter (fun s => s.node ∉ visited')).map
            (fun s => ((⟨e.to_, s.node, some s.weight⟩ : Edge), s.weight))
          g.primLoop nodesLen fuel (restPq ++ pushes) visited' (mst ++ [e]) (tw + w)

/-- `prim(graph, start?)`: fails on directed graphs before any computation;
empty result on the empty graph; otherwise runs the frontier loop from the
chosen start node. -/
def prim (g : Graph) (start : Option NodeId) : Except String SpanningTreeResult :=
  if g.isDirected then
    .error "Prim\x27s algorithm only works on undirected graphs"
  else
    match g.getNodes with
    | [] => .ok { edges := [], totalWeight := 0 }
    | current :: rest =>
      let startNode := start.getD current
      let pq0 := (g.getNeighbors startNode).map
        (fun s => ((⟨startNode, s.node, some s.weight⟩ : Edge), s.weight))
      let r := g.primLoop (rest.length + 1) (g.slotCount + 2) pq0 [startNode] [] 0
      .ok { edges := r.1, totalWeight := r.2 }

/-!  Bipartiteness (`isBipartite`): BFS 2-coloring from every uncolored node.
The color `Map` is an insertion-ordered association list. -/

/-- The `{ isBipartite, partitions? }` record. -/
structure BipartiteResult where
  isBipartite : Bool
  partitions : Option (List NodeId × List NodeId)
deriving DecidableEq, Repr, Inhabited

/-- The neighbor scan of one dequeued node: color uncolored neighbors with
the complementary color and append them to the accumulator destined for the
queue; fail the moment a neighbor carries the current node's color.  The
accumulated fresh pairs are also visible to later lookups of the same scan,
as the live `Map` is in the source. -/
def bipScanNeighbors (slots : List Slot) (cv : Nat) (colors : List (NodeId × Nat))
    (acc : List (NodeId × Nat)) : Option (List (NodeId × Nat)) :=
  match slots with
  | [] => some acc
  | s :: rest =>
    match lookupNode (colors ++ acc) s.node with
    | none => bipScanNeighbors rest cv colors (acc ++ [(s.node, 1 - cv)])
    | some c => if c = cv then none else bipScanNeighbors rest cv colors acc

lemma bipScanNeighbors_spec (g : Graph) (u : NodeId) :
    ∀ (slots : List Slot) (cv : Nat) (colors acc : List (NodeId × Nat))
      (out : List (NodeId × Nat)),
      (∀ p ∈ acc, p.1 ∈ g.allTargets ∧ lookupNode colors p.1 = none) →
      (∀ s ∈ slots, s.node ∈ g.allTargets) →
      bipScanNeighbors slots cv colors acc = some out →
      ∀ p ∈ out, p.1 ∈ g.allTargets ∧ lookupNode colors p.1 = none := by
  intro slots
  induction slots with
  | nil =>
    intro cv colors acc out hacc _ hout
    rw [bipScanNeighbors] at hout
    injection hout with hout
    subst hout
    exact hacc
  | cons s rest ih =>
    intro cv colors acc out hacc hslots hout
    rw [bipScanNeighbors] at hout
    rcases hlk : lookupNode (colors ++ acc) s.node with _ | c
    · simp only [hlk] at hout
      refine ih cv colors (acc ++ [(s.node, 1 - cv)]) out ?_
        (fun t ht => hslots t (List.mem_cons_of_mem s ht)) hout
      intro p hp
      rcases List.mem_append.mp hp with hp | hp
      · exact hacc p hp
      · have hps : p = (s.node, 1 - cv) := List.mem_singleton.mp hp
        subst hps
        refine ⟨hslots s (List.mem_cons_self s rest), ?_⟩
        rcases hlk2 : lookupNode colors s.node with _ | c2
        · rfl
        · exact absurd (lookupNode_append_of_some colors acc s.node c2 hlk2)
            (by rw [hlk]; exact fun h => Option.noConfusion h)
    · simp only [hlk] at hout
      by_cases hc : c = cv
      · rw [if_pos hc] at hout
        exact Option.noConfusion hout
      · rw [if_neg hc] at hout
        exact ih cv colors acc out hacc
          (fun t ht => hslots t (List.mem_cons_of_mem s ht)) hout

/-- The BFS coloring loop of `isBipartite`: dequeue, scan the neighbors, and
either fail or continue with the enlarged queue and color map. -/
def Graph.bipLoop (g : Graph) (queue : List NodeId) (colors : List (NodeId × Nat)) :
    Option (List (NodeId × Nat)) :=
  match queue with
  | [] => some colors
  | current :: rest =>
    let cv := (lookupNode colors current).getD 0
    match hscan : bipScanNeighbors (g.getNeighbors current) cv colors [] with
    | none => none
    | some fresh => g.bipLoop (rest ++ fresh.map (·.1)) (colors ++ fresh)
termination_by (g.travMeasure queue (colors.map (·.1)), queue.length)
decreasing_by
  have hfresh : ∀ p ∈ fresh, p.1 ∈ g.allTargets ∧ lookupNode colors p.1 = none :=
    bipScanNeighbors_spec g current (g.getNeighbors current) cv colors [] fresh
      (fun p hp => absurd hp (List.not_mem_nil p))
      (fun s hs => getNeighbors_sub_targets g current s hs) hscan
  by_cases hfe : fresh = []
  · subst hfe
    simp only [List.map_nil, List.append_nil]
    have hle : g.travMeasure rest (colors.map (·.1)) ≤
        g.travMeasure (current :: rest) (colors.map (·.1)) :=
      travMeasure_mono g (fun x hx => Or.inl (List.mem_cons_of_mem current hx))
        (fun x hx => hx)
    rcases lt_or_eq_of_le hle with h | h
    · exact Prod.Lex.left _ _ h
    · rw [h]
      exact Prod.Lex.right _ (Nat.lt_succ_self _)
  · apply Prod.Lex.left
    obtain ⟨p0, hp0mem⟩ := List.exists_mem_of_ne_nil fresh hfe
    apply Finset.card_lt_card
    constructor
    · intro x hx
      simp only [Graph.travMeasure, Finset.mem_sdiff, Finset.mem_union, List.mem_toFinset,
        List.mem_append, List.mem_cons, List.mem_map] at hx ⊢
      obtain ⟨h1, h2⟩ := hx
      refine ⟨?_, fun hx2 => ?_⟩
      · rcases h1 with (h | h) | h
        · exact Or.inl (Or.inr h)
        · exfalso
          obtain ⟨q, hq, hxq⟩ := h
          exact h2 ⟨q, Or.inr hq, hxq⟩
        · exact Or.inr h
      · obtain ⟨q, hq, hxq⟩ := hx2
        exact h2 ⟨q, Or.inl hq, hxq⟩
    · intro hsub
      have hp0 := hfresh p0 hp0mem
      have hmem : p0.1 ∈ ((current :: rest).toFinset ∪ g.univFin) \
          (colors.map (·.1)).toFinset := by
        rw [Finset.mem_sdiff]
        refine ⟨Finset.mem_union_right _ ?_, fun hmem => ?_⟩
        · rw [Graph.univFin]
          exact Finset.mem_union_right _ (List.mem_toFinset.mpr hp0.1)
        · exact lookupNode_none_not_mem colors p0.1 hp0.2 (List.mem_toFinset.mp hmem)
      have hin := hsub hmem
      rw [Finset.mem_sdiff] at hin
      exact hin.2 (List.mem_toFinset.mpr
        (List.mem_map.mpr ⟨p0, List.mem_append_right _ hp0mem, rfl⟩))

/-- One outer-loop step of `isBipartite`: skip an already-colored root, else
color it 0 and run the BFS coloring from it; a failure state is final. -/
def bipOuterStep (g : Graph) (st : Option (List (NodeId × Nat))) (start : NodeId) :
    Option (List (NodeId × Nat)) :=
  match st with
  | none => none
  | some colors =>
    match lookupNode colors start with
    | some _ => some colors
    | none => g.bipLoop [start] (colors ++ [(start, 0)])

/-- `isBipartite(graph)`: root a BFS 2-coloring at every still-uncolored node
in node order; on success split the color map entries into the two
partitions. -/
def isBipartite (g : Graph) : BipartiteResult :=
  let final := g.nodesList.foldl (bipOuterStep g) (some [])
  match final with
  | none => { isBipartite := false, partitions := none }
  | some colors =>
    { isBipartite := true
      partitions := some
        ((colors.filter (fun p => p.2 = 0)).map (·.1),
         (colors.filter (fun p => ¬p.2 = 0)).map (·.1)) }

/-!  Concrete graphs the claims evaluate the code on. -/

/-- One undirected edge 1—2 added to a fresh default graph. -/
def oneEdgeGraph : Graph :=
  okD ((Graph.init defaultConfig).addEdge ⟨.num 1, .num 2, none⟩) default

/-- The triangle 1—2, 2—3, 3—1 added edge by edge to a default graph. -/
def triangleDirect : Graph :=
  okD ((Graph.init defaultConfig).addEdges
    [⟨.num 1, .num 2, none⟩, ⟨.num 2, .num 3, none⟩, ⟨.num 3, .num 1, none⟩]) default

/-- The graph the spec scenario builds from the text `"1-2, 2-3, 3-1"`
(undirected, unweighted). -/
def triangleGraph : Graph :=
  (okD (buildGraphFromEdges "1-2, 2-3, 3-1" false false) default).graph

/-- Undirected default graph after `addEdge(1,2,5)` then `addEdge(1,2,7)`. -/
def overwriteGraph : Graph :=
  okD ((Graph.init defaultConfig).addEdges
    [⟨.num 1, .num 2, some 5⟩, ⟨.num 1, .num 2, some 7⟩]) default

/-- Default graph after `addNode(1); addEdge(1→2); addNode("1")`. -/
def collisionGraph : Graph :=
  (okD (((Graph.init defaultConfig).addNode (.num 1)).addEdge
    ⟨.num 1, .num 2, none⟩) default).addNode (.str "1")

/-- The directed weighted graph with edges 1→2 of weight −5 and 2→1 of
weight −5 (a negative cycle). -/
def negCycleGraph : Graph :=
  okD ((Graph.init ⟨true, true, true, false⟩).addEdges
    [⟨.num 1, .num 2, some (-5)⟩, ⟨.num 2, .num 1, some (-5)⟩]) default

/-- An empty directed graph (already enough to trip the spanning-tree
precondition guards). -/
def emptyDirectedGraph : Graph :=
  Graph.init ⟨true, true, true, false⟩

/-- An undirected default graph with a single self-loop 1—1. -/
def selfLoopGraph : Graph :=
  okD ((Graph.init defaultConfig).addEdge ⟨.num 1, .num 1, none⟩) default

/-!  Claim C6 infrastructure: the round trip through
`buildGraphFromData`/`graphToData` is compared on weighted pairs. -/

/-- The weighted pair an edge record denotes: the endpoint pair — ordered for
a directed graph, sorted by string key for an undirected one (the endpoints
of one undirected edge always have distinct keys or are equal, so this is a
canonical representative of the unordered pair) — plus the effective weight,
an absent weight reading as the default 1. -/
def wpair (directed : Bool) (e : Edge) : NodeId × NodeId × ℚ :=
  let w := e.weight.getD 1
  if directed then (e.from_, e.to_, w)
  else if e.from_.toKey ≤ e.to_.toKey then (e.from_, e.to_, w)
  else (e.to_, e.from_, w)

/-- The canonical deduplication key of an edge record, as `getEdges` builds
it from a slot. -/
def canonKey (directed : Bool) (e : Edge) : String :=
  if directed then dirKey e.from_ e.to_ else undirKey e.from_ e.to_

/-- The key a weighted pair determines (used to transport key distinctness
to weighted-pair distinctness). -/
def keyOfPair (directed : Bool) (p : NodeId × NodeId × ℚ) : String :=
  if directed then dirKey p.1 p.2.1 else undirKey p.1 p.2.1

/-- Validity of a `GraphData` record under its configuration: distinct node
ids with distinct string keys (the adjacency object is keyed by `String(id)`),
edges whose endpoints are declared nodes, and self-loops only when the
configuration allows them. -/
def validGraphData (d : GraphData) : Prop :=
  (d.nodes.map (fun n => n.id)).Nodup ∧
  (d.nodes.map (fun n => n.id.toKey)).Nodup ∧
  (∀ e ∈ d.edges, e.from_ ∈ d.nodes.map (fun n => n.id) ∧
    e.to_ ∈ d.nodes.map (fun n => n.id)) ∧
  (d.config.allowSelfLoops = false → ∀ e ∈ d.edges, e.from_ ≠ e.to_)

instance : DecidablePred validGraphData := fun d => by
  unfold validGraphData
  infer_instance

/-- No two edges of the record share the canonical deduplication key of
`getEdges` (parallel edges always share it; distinct pairs can also collide
through the string encoding). -/
def edgeKeysNodup (d : GraphData) : Prop :=
  (d.edges.map (canonKey d.config.directed)).Nodup

instance : DecidablePred edgeKeysNodup := fun d => by
  unfold edgeKeysNodup
  infer_instance

/-- The neighbor slots one edge record contributes to node `u`'s list when
added by `addEdge`: the forward slot, and for an undirected graph the
mirrored slot (both landing in the same list for a self-loop). -/
def slotContrib (directed : Bool) (u : NodeId) (e : Edge) : List Slot :=
  let w := e.weight.getD 1
  if directed then (if e.from_ = u then [⟨e.to_, w⟩] else [])
  else if e.from_ = u ∧ e.to_ = u then [⟨u, w⟩, ⟨u, w⟩]
  else if e.from_ = u then [⟨e.to_, w⟩]
  else if e.to_ = u then [⟨e.from_, w⟩]
  else []

/-- The full neighbor list of `u` after adding a list of edge records in
order. -/
def slotsFor (directed : Bool) (es : List Edge) (u : NodeId) : List Slot :=
  es.flatMap (slotContrib directed u)

/-- The counterexample record for C6: a directed configuration with
multi-edges allowed and two parallel edges 1→2 of weights 2 and 3. -/
def multiEdgeData : GraphData :=
  { id := "g"
    name := "g"
    description := none
    nodes := [⟨.num 1⟩, ⟨.num 2⟩]
    edges := [⟨.num 1, .num 2, some 2⟩, ⟨.num 1, .num 2, some 3⟩]
    config := { directed := true, weighted := true, allowSelfLoops := true,
                allowMultipleEdges := true }
    createdAt := "t"
    updatedAt := "t" }

/-- The graph built from the counterexample record. -/
def multiEdgeGraph : Graph :=
  okD (buildGraphFromData multiEdgeData) default

/-- A concrete valid record with distinct canonical keys, used to witness the
amended C6: undirected weighted, one edge with an explicit weight 5 and one
with the default-coded weight 1. -/
def roundTripData : GraphData :=
  { id := "h"
    name := "h"
    description := some "d"
    nodes := [⟨.num 1⟩, ⟨.num 2⟩, ⟨.num 3⟩]
    edges := [⟨.num 2, .num 1, some 5⟩, ⟨.num 2, .num 3, some 1⟩]
    config := { directed := false, weighted := true, allowSelfLoops := false,
                allowMultipleEdges := false }
    createdAt := "t"
    updatedAt := "t" }

/-!  Claim theorems. -/

/-- C1: the claim fails on the code.  After adding the single undirected edge
1—2 to a fresh undirected graph, the adjacency object holds 2 directed slots,
yet `totalEdgeCount` reports 1/2 — not the slot count divided by 2 (which
would be 1), and fractional (no integer equals it); after adding the 3
distinct edges of a triangle it reports 3/2, not 3.  The internal counter
counts one increment per `addEdge` insertion while the undirected mirror push
adds a second slot without an increment, so halving it halves the true edge
count. -/
theorem claim_C1_totalEdgeCount_halved :
    oneEdgeGraph.slotCount = 2 ∧
    oneEdgeGraph.totalEdgeCount = 1 / 2 ∧
    oneEdgeGraph.totalEdgeCount ≠ (2 : ℚ) / 2 ∧
    (∀ k : ℤ, (k : ℚ) ≠ oneEdgeGraph.totalEdgeCount) ∧
    triangleDirect.totalEdgeCount = 3 / 2 ∧
    triangleDirect.totalEdgeCount ≠ 3 := by
  have h1 : oneEdgeGraph.totalEdgeCount = 1 / 2 := rfl
  have h2 : triangleDirect.totalEdgeCount = 3 / 2 := rfl
  refine ⟨rfl, h1, ?_, ?_, h2, ?_⟩
  · rw [h1]; norm_num
  · intro k h
    rw [h1] at h
    have h3 : ((2 * k : ℤ) : ℚ) = ((1 : ℤ) : ℚ) := by push_cast; rw [h]; ring
    have h4 : (2 * k : ℤ) = 1 := by exact_mod_cast h3
    omega
  · rw [h2]; norm_num

/-- C2: the scenario is three-quarters right and the density is wrong on the
code.  For the undirected unweighted graph built from `"1-2, 2-3, 3-1"`,
`isCycle`, `isComplete` and `isConnected` are all true as claimed, but
`calculateDensity` returns 1/2, not the claimed 1.0, because `totalEdgeCount`
reports 3/2 instead of 3 (the C1 edge-count bug). -/
theorem claim_C2_triangle_scenario :
    triangleGraph.isCycle = true ∧
    triangleGraph.isComplete = true ∧
    triangleGraph.isConnected = true ∧
    calculateDensity triangleGraph = 1 / 2 ∧
    calculateDensity triangleGraph ≠ 1 := by
  have h1 : triangleGraph.nodeCount = 3 := rfl
  have h2 : triangleGraph.totalEdgeCount = 3 / 2 := rfl
  have h3 : triangleGraph.isDirected = false := rfl
  have hd : calculateDensity triangleGraph = 1 / 2 := by
    simp only [calculateDensity, h1, h2, h3]
    norm_num
  refine ⟨rfl, rfl, rfl, hd, ?_⟩
  rw [hd]; norm_num

/-- C3: the claim fails on the code.  On the segment `A<->B` the converter
tries the `->` rule first and its lazy prefix absorbs the `<`, producing an
edge from `"A<"` to `"B"` marked directed; the `<->` rule, tried only after
both `->` and `-`, is unreachable, so no segment is ever recognized as
bidirectional via `<->`, and the from-node is not the claimed `A`. -/
theorem claim_C3_bidirectional_operator_dead :
    parseEdgeSegment "A<->B" 1 =
      .ok { from_ := .str "A<", to_ := .str "B", weight := none, isDirected := some true } ∧
    (okD (parseEdgeSegment "A<->B" 1) default).from_ ≠ .str "A" ∧
    (okD (parseEdgeSegment "A<->B" 1) default).isDirected ≠ some false := by
  exact ⟨rfl, by decide, by decide⟩

/-- C4: the claim fails on the code.  In an undirected default graph,
re-adding the existing edge 1—2 with weight 7 over weight 5 overwrites in
place (still 2 slots, counter still 1), but only the 1→2 slot: afterwards
`getEdgeWeight(1,2) = 7` while `getEdgeWeight(2,1)` still reads the old 5,
because the early-returning overwrite branch never touches the mirrored
slot. -/
theorem claim_C4_overwrite_skips_mirror :
    overwriteGraph.slotCount = 2 ∧
    overwriteGraph.edgeCount = 1 ∧
    overwriteGraph.getEdgeWeight (.num 1) (.num 2) = some 7 ∧
    overwriteGraph.getEdgeWeight (.num 2) (.num 1) = some 5 ∧
    overwriteGraph.getEdgeWeight (.num 2) (.num 1) ≠ some 7 := by
  exact ⟨rfl, rfl, rfl, rfl, by decide⟩

/-- C5: the claim fails on the code.  After `addNode(1); addEdge(1→2);
addNode("1")` the node set does hold both the number 1 and the string "1"
(value identity), but `addNode("1")` assigned a fresh empty list under the
shared string key `"1"`, wiping node 1's adjacency: `getNeighbors(1)` is
empty instead of still containing the entry for 2. -/
theorem claim_C5_addNode_clobbers_shared_key :
    collisionGraph.getNodes = [.num 1, .num 2, .str "1"] ∧
    collisionGraph.getNeighbors (.num 1) = [] ∧
    collisionGraph.hasEdge (.num 1) (.num 2) = false := by
  exact ⟨rfl, rfl, rfl⟩

/-- C8: `bellmanFord` returns the failure sentinel `none` exactly when the
final detection pass finds an edge still relaxable after the `V-1` rounds (a
negative cycle reachable from the start, since unreachable endpoints carry
infinite distance and never fire the strict comparison), otherwise it returns
a distance/path map; on the directed weighted two-cycle 1→2 (−5), 2→1 (−5)
it returns `none`, not a map. -/
theorem claim_C8_bellmanFord_sentinel :
    (∀ (g : Graph) (start : NodeId),
      (bellmanFord g start = none ↔ detectsNegativeCycle g start) ∧
      (¬detectsNegativeCycle g start → ∃ m, bellmanFord g start = some m)) ∧
    bellmanFord negCycleGraph (.num 1) = none := by
  constructor
  · intro g start
    have hiff : bellmanFord g start = none ↔ detectsNegativeCycle g start := by
      rw [bellmanFord, detectsNegativeCycle]
      by_cases h : (g.getEdges.any fun e =>
          decide ((bfRelaxed g start).1 e.from_ + ((e.weight.getD 1 : ℚ) : WithTop ℚ) <
            (bfRelaxed g start).1 e.to_)) = true
      · rw [if_pos h]
        simp only [List.any_eq_true, decide_eq_true_eq] at h
        simp only [true_iff]
        exact h
      · rw [if_neg h]
        simp only [List.any_eq_true, decide_eq_true_eq] at h
        constructor
        · intro hc
          exact absurd hc (by simp)
        · intro hc
          exact absurd hc h
    refine ⟨hiff, fun hnc => ?_⟩
    rcases hm : bellmanFord g start with _ | m
    · exact absurd (hiff.mp hm) hnc
    · exact ⟨m, rfl⟩
  · with_unfolding_all rfl

/-- C9: for every directed graph, `kruskal` and `prim` fail immediately with
the exact "only works on undirected graphs" errors; the guard is the first
statement of each, so no spanning-tree computation happens and no silent
result is produced. -/
theorem claim_C9_directed_guard (g : Graph) (h : g.isDirected = true) :
    kruskal g = .error "Kruskal\x27s algorithm only works on undirected graphs" ∧
    ∀ start, prim g start =
      .error "Prim\x27s algorithm only works on undirected graphs" := by
  constructor
  · rw [kruskal, if_pos h]
  · intro start
    rw [prim, if_pos h]

/-!  C7: the recursive and the iterative DFS produce the same `order`.
Both are related to the reference pending-list sweep `dfsSpecL`; `Absorb`
captures that dropping already-visited entries from the pending list does not
change the sweep. -/

/-- `Absorb vis s₁ s₂`: `s₁` is `s₂` with some entries that are already in
`vis` dropped. -/
inductive Absorb (vis : List NodeId) : List NodeId → List NodeId → Prop
  | nil : Absorb vis [] []
  | keep (x : NodeId) {s₁ s₂ : List NodeId} : Absorb vis s₁ s₂ →
      Absorb vis (x :: s₁) (x :: s₂)
  | drop (x : NodeId) {s₁ s₂ : List NodeId} : x ∈ vis → Absorb vis s₁ s₂ →
      Absorb vis s₁ (x :: s₂)

lemma absorb_refl (vis : List NodeId) : ∀ s, Absorb vis s s := by
  intro s
  induction s with
  | nil => exact Absorb.nil
  | cons x rest ih => exact Absorb.keep x ih

lemma absorb_mono {vis vis' s₁ s₂ : List NodeId} (h : Absorb vis s₁ s₂)
    (hsub : ∀ x ∈ vis, x ∈ vis') : Absorb vis' s₁ s₂ := by
  induction h with
  | nil => exact Absorb.nil
  | keep x _ ih => exact Absorb.keep x ih
  | drop x hx _ ih => exact Absorb.drop x (hsub x hx) ih

lemma absorb_append {vis a b c d : List NodeId} (h₁ : Absorb vis a b)
    (h₂ : Absorb vis c d) : Absorb vis (a ++ c) (b ++ d) := by
  induction h₁ with
  | nil => exact h₂
  | keep x _ ih => exact Absorb.keep x ih
  | drop x hx _ ih => exact Absorb.drop x hx ih

lemma absorb_filter (vis : List NodeId) (p : NodeId → Bool) :
    ∀ l, (∀ x ∈ l, p x = false → x ∈ vis) → Absorb vis (l.filter p) l := by
  intro l
  induction l with
  | nil => intro _; exact Absorb.nil
  | cons x rest ih =>
    intro h
    rcases hp : p x with _ | _
    · rw [List.filter_cons_of_neg (by rw [hp]; exact Bool.false_ne_true)]
      exact Absorb.drop x (h x (List.mem_cons_self x rest) hp)
        (ih fun y hy => h y (List.mem_cons_of_mem x hy))
    · rw [List.filter_cons_of_pos hp]
      exact Absorb.keep x (ih fun y hy => h y (List.mem_cons_of_mem x hy))

lemma specL_nil (g : Graph) (vis : List NodeId) : g.dfsSpecL [] vis = [] := by
  rw [Graph.dfsSpecL]

lemma specL_cons_mem (g : Graph) (x : NodeId) (rest vis : List NodeId) (h : x ∈ vis) :
    g.dfsSpecL (x :: rest) vis = g.dfsSpecL rest vis := by
  rw [Graph.dfsSpecL]
  simp [h]

lemma specL_cons_not_mem (g : Graph) (x : NodeId) (rest vis : List NodeId) (h : x ∉ vis) :
    g.dfsSpecL (x :: rest) vis =
      x :: g.dfsSpecL (((g.getNeighbors x).map (·.node)) ++ rest) (vis ++ [x]) := by
  rw [Graph.dfsSpecL]
  simp [h]

lemma absorb_specL (g : Graph) :
    ∀ (k l : Nat) (vis s₁ s₂ : List NodeId),
      g.travMeasure s₂ vis ≤ k → s₂.length ≤ l → Absorb vis s₁ s₂ →
      g.dfsSpecL s₁ vis = g.dfsSpecL s₂ vis := by
  have hmono : ∀ (x : NodeId) (s₂ vis : List NodeId),
      g.travMeasure s₂ vis ≤ g.travMeasure (x :: s₂) vis := by
    intro x s₂ vis
    exact travMeasure_mono g (fun y hy => Or.inl (List.mem_cons_of_mem x hy))
      (fun y hy => hy)
  have hpos : ∀ (x : NodeId) (s₂ vis : List NodeId), x ∉ vis →
      1 ≤ g.travMeasure (x :: s₂) vis := by
    intro x s₂ vis hx
    apply Finset.card_pos.mpr
    refine ⟨x, Finset.mem_sdiff.mpr ⟨Finset.mem_union_left _ ?_, ?_⟩⟩
    · exact List.mem_toFinset.mpr (List.mem_cons_self x s₂)
    · exact fun hmem => hx (List.mem_toFinset.mp hmem)
  have hpush : ∀ (x : NodeId), ∀ y ∈ (g.getNeighbors x).map (·.node), y ∈ g.univFin := by
    intro x y hy
    simp only [List.mem_map] at hy
    obtain ⟨s, hs, rfl⟩ := hy
    exact Finset.mem_union_right _ (List.mem_toFinset.mpr (getNeighbors_sub_targets g x s hs))
  intro k
  induction k with
  | zero =>
    intro l
    induction l with
    | zero =>
      intro vis s₁ s₂ _ hl hab
      have h2 : s₂ = [] := List.length_eq_zero.mp (Nat.le_zero.mp hl)
      subst h2
      cases hab
      rfl
    | succ l ihl =>
      intro vis s₁ s₂ hμ hl hab
      cases hab with
      | nil => rfl
      | keep x h =>
        by_cases hx : x ∈ vis
        · rw [specL_cons_mem g x _ vis hx, specL_cons_mem g x _ vis hx]
          exact ihl vis _ _ (le_trans (hmono x _ vis) hμ) (Nat.le_of_succ_le_succ hl) h
        · exact absurd (le_trans (hpos x _ vis hx) hμ) (by omega)
      | drop x hxv h =>
        rw [specL_cons_mem g x _ vis hxv]
        exact ihl vis s₁ _ (le_trans (hmono x _ vis) hμ) (Nat.le_of_succ_le_succ hl) h
  | succ k ihk =>
    intro l
    induction l with
    | zero =>
      intro vis s₁ s₂ _ hl hab
      have h2 : s₂ = [] := List.length_eq_zero.mp (Nat.le_zero.mp hl)
      subst h2
      cases hab
      rfl
    | succ l ihl =>
      intro vis s₁ s₂ hμ hl hab
      cases hab with
      | nil => rfl
      | keep x h =>
        by_cases hx : x ∈ vis
        · rw [specL_cons_mem g x _ vis hx, specL_cons_mem g x _ vis hx]
          exact ihl vis _ _ (le_trans (hmono x _ vis) hμ) (Nat.le_of_succ_le_succ hl) h
        · rename_i s₁' s₂'
          rw [specL_cons_not_mem g x s₁' vis hx, specL_cons_not_mem g x s₂' vis hx]
          congr 1
          have hlt : g.travMeasure (((g.getNeighbors x).map (·.node)) ++ s₂') (vis ++ [x]) <
              g.travMeasure (x :: s₂') vis :=
            travMeasure_visit_lt g x s₂' _ vis hx (hpush x)
          refine ihk (((g.getNeighbors x).map (·.node)) ++ s₂').length
            (vis ++ [x]) _ _ (by omega) (le_refl _) ?_
          exact absorb_append (absorb_refl _ _)
            (absorb_mono h (fun y hy => List.mem_append_left _ hy))
      | drop x hxv h =>
        rw [specL_cons_mem g x _ vis hxv]
        exact ihl vis s₁ _ (le_trans (hmono x _ vis) hμ) (Nat.le_of_succ_le_succ hl) h

lemma iter_eq_specL (g : Graph) :
    ∀ (stack visited : List NodeId), g.dfsIterAux stack visited = g.dfsSpecL stack visited := by
  intro stack visited
  induction stack, visited using Graph.dfsIterAux.induct g with
  | case1 visited =>
    rw [Graph.dfsIterAux, specL_nil]
  | case2 visited current rest hmem ih =>
    rw [Graph.dfsIterAux, specL_cons_mem g current rest visited hmem]
    rw [if_pos hmem]
    exact ih
  | case3 visited current rest hmem vp ih =>
    unfold_let vp at ih
    rw [Graph.dfsIterAux, specL_cons_not_mem g current rest visited hmem]
    rw [if_neg hmem]
    dsimp only
    congr 1
    rw [ih]
    apply absorb_specL g (g.travMeasure (((g.getNeighbors current).map (·.node)) ++ rest)
      (visited ++ [current])) (((g.getNeighbors current).map (·.node)) ++ rest).length
      _ _ _ (le_refl _) (le_refl _)
    apply absorb_append _ (absorb_refl _ rest)
    apply absorb_filter
    intro x hx hpx
    simp only [decide_eq_false_iff_not, Decidable.not_not] at hpx
    exact hpx

lemma frames_eq_specL (g : Graph) :
    ∀ (frames : List (List Slot)) (visited : List NodeId),
      g.dfsFrames frames visited = visited ++ g.dfsSpecL (framesTargets frames) visited := by
  intro frames visited
  induction frames, visited using Graph.dfsFrames.induct g with
  | case1 visited =>
    rw [Graph.dfsFrames]
    have h : framesTargets [] = [] := rfl
    rw [h, specL_nil, List.append_nil]
  | case2 visited fs ih =>
    rw [Graph.dfsFrames, ih]
    have h : framesTargets ([] :: fs) = framesTargets fs := by simp [framesTargets]
    rw [h]
  | case3 visited s rest fs hmem ih =>
    rw [Graph.dfsFrames]
    rw [if_pos hmem]
    rw [ih]
    have h : framesTargets ((s :: rest) :: fs) = s.node :: framesTargets (rest :: fs) := by
      simp [framesTargets]
    rw [h, specL_cons_mem g s.node _ visited hmem]
  | case4 visited s rest fs hmem ih =>
    rw [Graph.dfsFrames]
    rw [if_neg hmem]
    rw [ih]
    have h1 : framesTargets ((s :: rest) :: fs) = s.node :: framesTargets (rest :: fs) := by
      simp [framesTargets]
    have h2 : framesTargets (g.getNeighbors s.node :: rest :: fs) =
        ((g.getNeighbors s.node).map (·.node)) ++ framesTargets (rest :: fs) := by
      simp [framesTargets]
    rw [h1, specL_cons_not_mem g s.node _ visited hmem, h2]
    simp

/-- C7: for every graph and every start node, the recursive DFS and the
explicit-stack iterative DFS produce identical `order` sequences. -/
theorem claim_C7_dfs_variants_agree (g : Graph) (start : NodeId) :
    dfs g start = dfsIterative g start := by
  rw [dfs, dfsIterative, frames_eq_specL, iter_eq_specL]
  have h0 : (start : NodeId) ∉ ([] : List NodeId) := List.not_mem_nil start
  rw [specL_cons_not_mem g start [] [] h0]
  have h1 : framesTargets [g.getNeighbors start] = (g.getNeighbors start).map (·.node) := by
    simp [framesTargets]
  rw [h1]
  simp

/-!  C10: a self-loop forces `isBipartite` to report false.  The invariant:
whenever the BFS coloring loop succeeds, every node it dequeued — and every
node it colored — has all its neighbors colored differently from itself in
the final map; a self-loop slot makes that impossible for its node. -/

lemma lookupNode_mem {α : Type} :
    ∀ (m : List (NodeId × α)) (k : NodeId) (v : α), lookupNode m k = some v → (k, v) ∈ m := by
  intro m
  induction m with
  | nil => intro k v h; simp [lookupNode] at h
  | cons p rest ih =>
    intro k v h
    rw [lookupNode] at h
    by_cases hp : p.1 = k
    · rw [if_pos hp] at h
      injection h with h
      have hpv : p = (k, v) := by
        obtain ⟨p1, p2⟩ := p
        simp only at hp h
        rw [hp, h]
      rw [hpv]
      exact List.mem_cons_self _ _
    · rw [if_neg hp] at h
      exact List.mem_cons_of_mem _ (ih k v h)

lemma mem_keys_lookup {α : Type} :
    ∀ (m : List (NodeId × α)) (k : NodeId), k ∈ m.map (·.1) →
      ∃ v, lookupNode m k = some v := by
  intro m
  induction m with
  | nil => intro k h; simp at h
  | cons p rest ih =>
    intro k h
    by_cases hp : p.1 = k
    · exact ⟨p.2, by rw [lookupNode, if_pos hp]⟩
    · rw [lookupNode, if_neg hp]
      rw [List.map_cons] at h
      rcases List.mem_cons.mp h with h1 | h1
      · exact absurd h1.symm hp
      · exact ih k h1

lemma lookupNode_append_none {α : Type} :
    ∀ (m₁ m₂ : List (NodeId × α)) (k : NodeId), lookupNode m₁ k = none →
      lookupNode (m₁ ++ m₂) k = lookupNode m₂ k := by
  intro m₁
  induction m₁ with
  | nil => intro m₂ k _; rfl
  | cons p rest ih =>
    intro m₂ k h
    rw [lookupNode] at h
    rw [List.cons_append, lookupNode]
    by_cases hp : p.1 = k
    · rw [if_pos hp] at h
      exact Option.noConfusion h
    · rw [if_neg hp] at h ⊢
      exact ih m₂ k h

lemma lookupNode_append_none_left {α : Type} (m₁ m₂ : List (NodeId × α)) (k : NodeId)
    (h : lookupNode (m₁ ++ m₂) k = none) : lookupNode m₁ k = none := by
  rcases hl : lookupNode m₁ k with _ | v
  · rfl
  · rw [lookupNode_append_of_some m₁ m₂ k v hl] at h
    exact Option.noConfusion h

lemma bipScan_prefix :
    ∀ (slots : List Slot) (cv : Nat) (colors acc out : List (NodeId × Nat)),
      bipScanNeighbors slots cv colors acc = some out → ∃ suffix, out = acc ++ suffix := by
  intro slots
  induction slots with
  | nil =>
    intro cv colors acc out h
    rw [bipScanNeighbors] at h
    injection h with h
    exact ⟨[], by rw [← h, List.append_nil]⟩
  | cons s rest ih =>
    intro cv colors acc out h
    rw [bipScanNeighbors] at h
    rcases hlk : lookupNode (colors ++ acc) s.node with _ | c
    · simp only [hlk] at h
      obtain ⟨sfx, hs⟩ := ih cv colors _ out h
      refine ⟨(s.node, 1 - cv) :: sfx, ?_⟩
      rw [hs, List.append_assoc]
      rfl
    · simp only [hlk] at h
      by_cases hc : c = cv
      · rw [if_pos hc] at h
        exact Option.noConfusion h
      · rw [if_neg hc] at h
        exact ih cv colors acc out h

lemma bipScan_values :
    ∀ (slots : List Slot) (cv : Nat) (colors acc out : List (NodeId × Nat)),
      bipScanNeighbors slots cv colors acc = some out →
      (∀ p ∈ acc, p.2 ≤ 1) → ∀ p ∈ out, p.2 ≤ 1 := by
  intro slots
  induction slots with
  | nil =>
    intro cv colors acc out h hacc
    rw [bipScanNeighbors] at h
    injection h with h
    subst h
    exact hacc
  | cons s rest ih =>
    intro cv colors acc out h hacc
    rw [bipScanNeighbors] at h
    rcases hlk : lookupNode (colors ++ acc) s.node with _ | c
    · simp only [hlk] at h
      refine ih cv colors _ out h ?_
      intro p hp
      rcases List.mem_append.mp hp with hp | hp
      · exact hacc p hp
      · rw [List.mem_singleton.mp hp]
        exact Nat.sub_le 1 cv
    · simp only [hlk] at h
      by_cases hc : c = cv
      · rw [if_pos hc] at h
        exact Option.noConfusion h
      · rw [if_neg hc] at h
        exact ih cv colors acc out h hacc

lemma bipScan_checked :
    ∀ (slots : List Slot) (cv : Nat) (colors acc out : List (NodeId × Nat)),
      bipScanNeighbors slots cv colors acc = some out →
      ∀ s ∈ slots, ∃ b, lookupNode (colors ++ out) s.node = some b ∧ b ≠ cv := by
  intro slots
  induction slots with
  | nil => intro cv colors acc out _ s hs; exact absurd hs (List.not_mem_nil s)
  | cons s rest ih =>
    intro cv colors acc out h t ht
    rw [bipScanNeighbors] at h
    rcases hlk : lookupNode (colors ++ acc) s.node with _ | c
    · simp only [hlk] at h
      rcases List.mem_cons.mp ht with ht | ht
      · subst ht
        obtain ⟨sfx, hout⟩ := bipScan_prefix rest cv colors _ out h
        have hcol : lookupNode colors t.node = none :=
          lookupNode_append_none_left colors acc t.node hlk
        have hacc : lookupNode acc t.node = none := by
          rw [lookupNode_append_none colors acc t.node hcol] at hlk
          exact hlk
        refine ⟨1 - cv, ?_, by omega⟩
        rw [lookupNode_append_none colors out t.node hcol, hout,
          List.append_assoc, lookupNode_append_none acc _ t.node hacc]
        rw [List.singleton_append, lookupNode, if_pos rfl]
      · exact ih cv colors _ out h t ht
    · simp only [hlk] at h
      by_cases hc : c = cv
      · rw [if_pos hc] at h
        exact Option.noConfusion h
      · rw [if_neg hc] at h
        rcases List.mem_cons.mp ht with ht | ht
        · subst ht
          obtain ⟨sfx, hout⟩ := bipScan_prefix rest cv colors acc out h
          refine ⟨c, ?_, hc⟩
          have : lookupNode ((colors ++ acc) ++ sfx) t.node = some c :=
            lookupNode_append_of_some _ sfx t.node c hlk
          rw [List.append_assoc] at this
          rw [hout, ← List.append_assoc]
          rw [← List.append_assoc] at this
          exact this
        · exact ih cv colors acc out h t ht

lemma bipLoop_spec (g : Graph) :
    ∀ (queue : List NodeId) (colors : List (NodeId × Nat)),
      ∀ colors', g.bipLoop queue colors = some colors' →
      (∀ v ∈ queue, ∃ a, lookupNode colors v = some a) →
      (∀ p ∈ colors, p.2 ≤ 1) →
      (∃ suffix, colors' = colors ++ suffix) ∧
      (∀ p ∈ colors', p.2 ≤ 1) ∧
      (∀ v, (v ∈ queue ∨ (v ∈ colors'.map (·.1) ∧ v ∉ colors.map (·.1))) →
        ∀ s ∈ g.getNeighbors v,
          ∃ a b, lookupNode colors' v = some a ∧ lookupNode colors' s.node = some b ∧
            b ≠ a) := by
  intro queue colors
  induction queue, colors using Graph.bipLoop.induct g with
  | case1 colors =>
    intro colors' hrun _ hbound
    rw [Graph.bipLoop] at hrun
    injection hrun with hrun
    subst hrun
    refine ⟨⟨[], (List.append_nil colors).symm⟩, hbound, ?_⟩
    intro v hv
    rcases hv with hv | ⟨hv1, hv2⟩
    · exact absurd hv (List.not_mem_nil v)
    · exact absurd hv1 hv2
  | case2 colors current rest cv hscan =>
    intro colors' hrun _ _
    unfold_let cv at hscan
    have hval : g.bipLoop (current :: rest) colors = none := by
      rw [Graph.bipLoop]
      split
      · rfl
      · next fresh2 heq =>
        rw [hscan] at heq
        exact Option.noConfusion heq
    rw [hval] at hrun
    exact Option.noConfusion hrun
  | case3 colors current rest cv fresh hscan ih =>
    intro colors' hrun hq hbound
    unfold_let cv at hscan
    have hval : g.bipLoop (current :: rest) colors =
        g.bipLoop (rest ++ fresh.map (·.1)) (colors ++ fresh) := by
      rw [Graph.bipLoop]
      split
      · next heq =>
        rw [hscan] at heq
        exact Option.noConfusion heq
      · next fresh2 heq =>
        rw [hscan] at heq
        injection heq with heq
        rw [heq]
    rw [hval] at hrun
    obtain ⟨a₀, ha₀⟩ := hq current (List.mem_cons_self current rest)
    rw [ha₀] at hscan
    simp only [Option.getD_some] at hscan
    have hfreshProps := bipScanNeighbors_spec g current (g.getNeighbors current) a₀
      colors [] fresh (fun p hp => absurd hp (List.not_mem_nil p))
      (fun s hs => getNeighbors_sub_targets g current s hs) hscan
    have hfreshVals : ∀ p ∈ fresh, p.2 ≤ 1 :=
      bipScan_values (g.getNeighbors current) a₀ colors [] fresh hscan
        (fun p hp => absurd hp (List.not_mem_nil p))
    have hchecked := bipScan_checked (g.getNeighbors current) a₀ colors [] fresh hscan
    have hq' : ∀ v ∈ rest ++ fresh.map (·.1), ∃ a, lookupNode (colors ++ fresh) v = some a := by
      intro v hv
      rcases List.mem_append.mp hv with hv | hv
      · obtain ⟨a, ha⟩ := hq v (List.mem_cons_of_mem current hv)
        exact ⟨a, lookupNode_append_of_some colors fresh v a ha⟩
      · obtain ⟨b, hb⟩ := mem_keys_lookup fresh v hv
        have hnone : lookupNode colors v = none := by
          obtain ⟨p, hp, rfl⟩ := List.mem_map.mp hv
          exact (hfreshProps p hp).2
        rw [lookupNode_append_none colors fresh v hnone]
        exact ⟨b, hb⟩
    have hbound' : ∀ p ∈ colors ++ fresh, p.2 ≤ 1 := by
      intro p hp
      rcases List.mem_append.mp hp with hp | hp
      · exact hbound p hp
      · exact hfreshVals p hp
    obtain ⟨⟨sfx₂, hsfx₂⟩, hbound'', hchk⟩ := ih colors' hrun hq' hbound'
    have hpersist : ∀ (k : NodeId) (a : Nat),
        lookupNode (colors ++ fresh) k = some a → lookupNode colors' k = some a := by
      intro k a ha
      rw [hsfx₂]
      exact lookupNode_append_of_some _ _ k a ha
    refine ⟨⟨fresh ++ sfx₂, by rw [hsfx₂, List.append_assoc]⟩, hbound'', ?_⟩
    intro v hv s hs
    rcases hv with hv | ⟨hv1, hv2⟩
    · rcases List.mem_cons.mp hv with hv | hv
      · subst hv
        obtain ⟨b, hb, hbne⟩ := hchecked s hs
        refine ⟨a₀, b, ?_, hpersist _ _ hb, hbne⟩
        exact hpersist _ _ (lookupNode_append_of_some colors fresh _ a₀ ha₀)
      · exact hchk v (Or.inl (List.mem_append_left _ hv)) s hs
    · by_cases hvf : v ∈ fresh.map (·.1)
      · exact hchk v (Or.inl (List.mem_append_right _ hvf)) s hs
      · refine hchk v (Or.inr ⟨hv1, ?_⟩) s hs
        intro hvm
        rcases List.mem_map.mp hvm with ⟨p, hp, hpv⟩
        rcases List.mem_append.mp hp with hp | hp
        · exact hv2 (List.mem_map.mpr ⟨p, hp, hpv⟩)
        · exact hvf (List.mem_map.mpr ⟨p, hp, hpv⟩)

lemma bipOuter_none (g : Graph) :
    ∀ roots, List.foldl (bipOuterStep g) none roots = none := by
  intro roots
  induction roots with
  | nil => rfl
  | cons r rest ih =>
    rw [List.foldl_cons]
    exact ih

lemma bipOuter_spec (g : Graph) :
    ∀ (roots : List NodeId) (colors c_f : List (NodeId × Nat)),
      List.foldl (bipOuterStep g) (some colors) roots = some c_f →
      (∀ p ∈ colors, p.2 ≤ 1) →
      (∃ suffix, c_f = colors ++ suffix) ∧
      (∀ v, (v ∈ c_f.map (·.1) ∧ v ∉ colors.map (·.1)) →
        ∀ s ∈ g.getNeighbors v,
          ∃ a b, lookupNode c_f v = some a ∧ lookupNode c_f s.node = some b ∧ b ≠ a) ∧
      (∀ r ∈ roots, r ∈ c_f.map (·.1)) := by
  intro roots
  induction roots with
  | nil =>
    intro colors c_f hrun hbound
    rw [List.foldl_nil] at hrun
    injection hrun with hrun
    subst hrun
    exact ⟨⟨[], (List.append_nil _).symm⟩, fun v hv => absurd hv.1 hv.2,
      fun r hr => absurd hr (List.not_mem_nil r)⟩
  | cons r roots' ih =>
    intro colors c_f hrun hbound
    rw [List.foldl_cons, bipOuterStep] at hrun
    rcases hlr : lookupNode colors r with _ | a
    · simp only [hlr] at hrun
      rcases hbl : g.bipLoop [r] (colors ++ [(r, 0)]) with _ | c₁
      · rw [hbl, bipOuter_none g roots'] at hrun
        exact Option.noConfusion hrun
      · rw [hbl] at hrun
        have hq0 : ∀ v ∈ [r], ∃ b, lookupNode (colors ++ [(r, 0)]) v = some b := by
          intro v hv
          have hvr : v = r := List.mem_singleton.mp hv
          subst hvr
          rw [lookupNode_append_none colors [(v, 0)] v hlr]
          exact ⟨0, by rw [lookupNode, if_pos rfl]⟩
        have hb0 : ∀ p ∈ colors ++ [(r, 0)], p.2 ≤ 1 := by
          intro p hp
          rcases List.mem_append.mp hp with hp | hp
          · exact hbound p hp
          · rw [List.mem_singleton.mp hp]
            exact Nat.zero_le 1
        obtain ⟨⟨sfx₁, hsfx₁⟩, hbound₁, hchk₁⟩ :=
          bipLoop_spec g [r] (colors ++ [(r, 0)]) c₁ hbl hq0 hb0
        obtain ⟨⟨sfx₂, hsfx₂⟩, hchk₂, hroots₂⟩ := ih c₁ c_f hrun hbound₁
        have hpersist : ∀ (k : NodeId) (b : Nat),
            lookupNode c₁ k = some b → lookupNode c_f k = some b := by
          intro k b hb
          rw [hsfx₂]
          exact lookupNode_append_of_some _ _ k b hb
        refine ⟨⟨([(r, 0)] ++ sfx₁) ++ sfx₂, ?_⟩, ?_, ?_⟩
        · rw [hsfx₂, hsfx₁]
          simp [List.append_assoc]
        · intro v hv s hs
          by_cases hvc₁ : v ∈ c₁.map (·.1)
          · by_cases hvr : v = r
            · subst hvr
              obtain ⟨a2, b2, h1, h2, h3⟩ := hchk₁ v (Or.inl (List.mem_singleton_self v)) s hs
              exact ⟨a2, b2, hpersist _ _ h1, hpersist _ _ h2, h3⟩
            · have hnotin : v ∉ (colors ++ [(r, 0)]).map (fun p : NodeId × Nat => p.1) := by
                intro hm
                rcases List.mem_map.mp hm with ⟨p, hp, hpv⟩
                rcases List.mem_append.mp hp with hp | hp
                · exact hv.2 (List.mem_map.mpr ⟨p, hp, hpv⟩)
                · rw [List.mem_singleton.mp hp] at hpv
                  exact hvr (by rw [← hpv])
              obtain ⟨a2, b2, h1, h2, h3⟩ := hchk₁ v (Or.inr ⟨hvc₁, hnotin⟩) s hs
              exact ⟨a2, b2, hpersist _ _ h1, hpersist _ _ h2, h3⟩
          · exact hchk₂ v ⟨hv.1, hvc₁⟩ s hs
        · intro r' hr'
          rcases List.mem_cons.mp hr' with hr' | hr'
          · subst hr'
            have hin : r' ∈ (colors ++ [(r', 0)]).map (fun p : NodeId × Nat => p.1) :=
              List.mem_map.mpr ⟨(r', 0),
                List.mem_append_right _ (List.mem_singleton_self _), rfl⟩
            have h1 : r' ∈ c₁.map (·.1) := by
              rw [hsfx₁, List.map_append]
              exact List.mem_append_left _ hin
            rw [hsfx₂, List.map_append]
            exact List.mem_append_left _ h1
          · exact hroots₂ r' hr'
    · simp only [hlr] at hrun
      obtain ⟨⟨sfx, hsfx⟩, hchk, hroots⟩ := ih colors c_f hrun hbound
      refine ⟨⟨sfx, hsfx⟩, hchk, ?_⟩
      intro r' hr'
      rcases List.mem_cons.mp hr' with hr' | hr'
      · subst hr'
        have hmem : (r', a) ∈ colors := lookupNode_mem colors r' a hlr
        rw [hsfx, List.map_append]
        exact List.mem_append_left _ (List.mem_map.mpr ⟨(r', a), hmem, rfl⟩)
      · exact hroots r' hr'

/-- C10: any graph holding a self-loop slot `(u, u)` on a node `u` of the
node set makes `isBipartite` report false: the BFS 2-coloring would need `u`
adjacent to itself with a color differing from its own. -/
theorem claim_C10_self_loop_not_bipartite (g : Graph) (u : NodeId) (w : ℚ)
    (hu : u ∈ g.nodesList) (hslot : (⟨u, w⟩ : Slot) ∈ g.getNeighbors u) :
    (isBipartite g).isBipartite = false := by
  rw [isBipartite]
  rcases hfold : List.foldl (bipOuterStep g) (some []) g.nodesList with _ | c_f
  · rfl
  · exfalso
    obtain ⟨_, hchk, hroots⟩ := bipOuter_spec g g.nodesList [] c_f hfold
      (fun p hp => absurd hp (List.not_mem_nil p))
    have hukeys : u ∈ c_f.map (·.1) := hroots u hu
    obtain ⟨a, b, h1, h2, h3⟩ := hchk u ⟨hukeys, by simp⟩ ⟨u, w⟩ hslot
    rw [h1] at h2
    injection h2 with h2
    exact h3 h2.symm

/-!  C6 proof layer.  First the object-map and key algebra. -/

lemma objGet_objSet_same {α : Type} :
    ∀ (m : List (String × α)) (k : String) (v : α), objGet (objSet m k v) k = some v := by
  intro m
  induction m with
  | nil => intro k v; simp [objSet, objGet]
  | cons p rest ih =>
    intro k v
    obtain ⟨pk, pv⟩ := p
    rw [objSet]
    by_cases hp : pk = k
    · rw [if_pos hp, objGet, if_pos rfl]
    · rw [if_neg hp, objGet, if_neg hp]
      exact ih k v

lemma objGet_objSet_other {α : Type} :
    ∀ (m : List (String × α)) (k k' : String) (v : α), k' ≠ k →
      objGet (objSet m k v) k' = objGet m k' := by
  intro m
  induction m with
  | nil =>
    intro k k' v h
    simp only [objSet, objGet]
    rw [if_neg (fun hk => h hk.symm)]
  | cons p rest ih =>
    intro k k' v h
    obtain ⟨pk, pv⟩ := p
    rw [objSet]
    by_cases hp : pk = k
    · rw [if_pos hp, objGet, objGet, if_neg (fun hk => h hk.symm), hp, if_neg (fun hk => h hk.symm)]
    · rw [if_neg hp, objGet, objGet]
      by_cases hp' : pk = k'
      · rw [if_pos hp', if_pos hp']
      · rw [if_neg hp', if_neg hp']
        exact ih k k' v h

lemma addNode_mem (g : Graph) (id : NodeId) (h : id ∈ g.nodesList) : g.addNode id = g := by
  rw [Graph.addNode, if_pos h]

lemma undirKey_symm (a b : NodeId) : undirKey a b = undirKey b a := by
  rw [undirKey, undirKey]
  by_cases h1 : a.toKey ≤ b.toKey
  · by_cases h2 : b.toKey ≤ a.toKey
    · rw [if_pos h1, if_pos h2, le_antisymm h1 h2]
    · rw [if_pos h1, if_neg h2]
  · by_cases h2 : b.toKey ≤ a.toKey
    · rw [if_neg h1, if_pos h2]
    · exact absurd (le_total a.toKey b.toKey) (by simp [h1, h2])

lemma weightNorm_getD (w : ℚ) : ((if w = 1 then none else some w).getD 1) = w := by
  by_cases h : w = 1
  · rw [if_pos h, Option.getD_none, h]
  · rw [if_neg h, Option.getD_some]

lemma slotsFor_append (directed : Bool) (es : List Edge) (e : Edge) (u : NodeId) :
    slotsFor directed (es ++ [e]) u = slotsFor directed es u ++ slotContrib directed u e := by
  rw [slotsFor, slotsFor, List.flatMap_append]
  simp [List.flatMap]

lemma dedupPairs_sub {α : Type} :
    ∀ (l : List (α × String)) (seen : List String) (p : α × String),
      p ∈ dedupPairs l seen → p ∈ l := by
  intro l
  induction l with
  | nil => intro seen p h; rw [dedupPairs] at h; exact absurd h (List.not_mem_nil p)
  | cons q rest ih =>
    intro seen p h
    obtain ⟨qe, qk⟩ := q
    rw [dedupPairs] at h
    by_cases hk : qk ∈ seen
    · rw [if_pos hk] at h
      exact List.mem_cons_of_mem _ (ih seen p h)
    · rw [if_neg hk] at h
      rcases List.mem_cons.mp h with h | h
      · rw [h]; exact List.mem_cons_self _ _
      · exact List.mem_cons_of_mem _ (ih (qk :: seen) p h)

lemma dedupPairs_keys_nodup {α : Type} :
    ∀ (l : List (α × String)) (seen : List String),
      ((dedupPairs l seen).map (·.2)).Nodup ∧
      (∀ p ∈ dedupPairs l seen, p.2 ∉ seen) := by
  intro l
  induction l with
  | nil => intro seen; rw [dedupPairs]; exact ⟨List.nodup_nil, fun p hp => absurd hp (List.not_mem_nil p)⟩
  | cons q rest ih =>
    intro seen
    obtain ⟨qe, qk⟩ := q
    rw [dedupPairs]
    by_cases hk : qk ∈ seen
    · rw [if_pos hk]
      exact ih seen
    · rw [if_neg hk]
      obtain ⟨ihn, ihs⟩ := ih (qk :: seen)
      constructor
      · rw [List.map_cons, List.nodup_cons]
        refine ⟨?_, ihn⟩
        intro hmem
        rcases List.mem_map.mp hmem with ⟨p, hp, hpk⟩
        exact ihs p hp (by rw [hpk]; exact List.mem_cons_self qk seen)
      · intro p hp
        rcases List.mem_cons.mp hp with hp | hp
        · rw [hp]
          exact hk
        · exact fun hmem => ihs p hp (List.mem_cons_of_mem qk hmem)

lemma dedupPairs_exists {α : Type} :
    ∀ (l : List (α × String)) (seen : List String) (x : α) (k : String),
      (x, k) ∈ l → k ∉ seen → ∃ y, (y, k) ∈ dedupPairs l seen := by
  intro l
  induction l with
  | nil => intro seen x k h _; exact absurd h (List.not_mem_nil _)
  | cons q rest ih =>
    intro seen x k h hks
    obtain ⟨qe, qk⟩ := q
    rw [dedupPairs]
    by_cases hk : qk ∈ seen
    · rw [if_pos hk]
      rcases List.mem_cons.mp h with h | h
      · injection h with h1 h2
        exact absurd (show k ∈ seen by rw [h2]; exact hk) hks
      · exact ih seen x k h hks
    · rw [if_neg hk]
      by_cases hkq : k = qk
      · exact ⟨qe, by rw [hkq]; exact List.mem_cons_self _ _⟩
      · rcases List.mem_cons.mp h with h | h
        · injection h with h1 h2
          exact absurd h2 hkq
        · obtain ⟨y, hy⟩ := ih (qk :: seen) x k h (by
            intro hm
            rcases List.mem_cons.mp hm with hm | hm
            · exact hkq hm
            · exact hks hm)
          exact ⟨y, List.mem_cons_of_mem _ hy⟩

lemma slotContrib_key (directed : Bool) (u : NodeId) (e : Edge) (s : Slot)
    (hs : s ∈ slotContrib directed u e) :
    (if directed then dirKey u s.node else undirKey u s.node) = canonKey directed e := by
  rw [slotContrib] at hs
  cases directed with
  | true =>
    rw [if_pos rfl] at hs ⊢
    rw [canonKey, if_pos rfl]
    by_cases hf : e.from_ = u
    · rw [if_pos hf] at hs
      rw [List.mem_singleton] at hs
      rw [hs, hf]
    · rw [if_neg hf] at hs
      exact absurd hs (List.not_mem_nil s)
  | false =>
    rw [if_neg Bool.false_ne_true] at hs ⊢
    rw [canonKey, if_neg Bool.false_ne_true]
    by_cases h1 : e.from_ = u ∧ e.to_ = u
    · rw [if_pos h1] at hs
      have hn : s.node = u := by
        rcases List.mem_cons.mp hs with h | h
        · rw [h]
        · rw [List.mem_singleton] at h
          rw [h]
      rw [hn, h1.1, h1.2]
    · rw [if_neg h1] at hs
      by_cases h2 : e.from_ = u
      · rw [if_pos h2] at hs
        rw [List.mem_singleton] at hs
        rw [hs, h2]
      · rw [if_neg h2] at hs
        by_cases h3 : e.to_ = u
        · rw [if_pos h3] at hs
          rw [List.mem_singleton] at hs
          rw [hs, h3, undirKey_symm]
        · rw [if_neg h3] at hs
          exact absurd hs (List.not_mem_nil s)

lemma slotContrib_weight (directed : Bool) (u : NodeId) (e : Edge) (s : Slot)
    (hs : s ∈ slotContrib directed u e) : s.weight = e.weight.getD 1 := by
  rw [slotContrib] at hs
  cases directed with
  | true =>
    rw [if_pos rfl] at hs
    by_cases hf : e.from_ = u
    · rw [if_pos hf, List.mem_singleton] at hs
      rw [hs]
    · rw [if_neg hf] at hs
      exact absurd hs (List.not_mem_nil s)
  | false =>
    rw [if_neg Bool.false_ne_true] at hs
    by_cases h1 : e.from_ = u ∧ e.to_ = u
    · rw [if_pos h1] at hs
      rcases List.mem_cons.mp hs with h | h
      · rw [h]
      · rw [List.mem_singleton] at h
        rw [h]
    · rw [if_neg h1] at hs
      by_cases h2 : e.from_ = u
      · rw [if_pos h2, List.mem_singleton] at hs
        rw [hs]
      · rw [if_neg h2] at hs
        by_cases h3 : e.to_ = u
        · rw [if_pos h3, List.mem_singleton] at hs
          rw [hs]
        · rw [if_neg h3] at hs
          exact absurd hs (List.not_mem_nil s)

lemma slotContrib_wpair (directed : Bool) (u : NodeId) (e : Edge) (s : Slot)
    (hinj : e.from_.toKey = e.to_.toKey → e.from_ = e.to_)
    (hs : s ∈ slotContrib directed u e) :
    wpair directed ⟨u, s.node, if s.weight = 1 then none else some s.weight⟩ =
      wpair directed e := by
  have hw : s.weight = e.weight.getD 1 := slotContrib_weight directed u e s hs
  rw [slotContrib] at hs
  cases directed with
  | true =>
    rw [if_pos rfl] at hs
    by_cases hf : e.from_ = u
    · rw [if_pos hf, List.mem_singleton] at hs
      rw [wpair, wpair, if_pos rfl, if_pos rfl, hs, hf]
      simp [weightNorm_getD, hw, hs]
    · rw [if_neg hf] at hs
      exact absurd hs (List.not_mem_nil s)
  | false =>
    rw [if_neg Bool.false_ne_true] at hs
    rw [wpair, wpair, if_neg Bool.false_ne_true, if_neg Bool.false_ne_true]
    by_cases h1 : e.from_ = u ∧ e.to_ = u
    · have hn : s.node = u := by
        rw [if_pos h1] at hs
        rcases List.mem_cons.mp hs with h | h
        · rw [h]
        · rw [List.mem_singleton] at h
          rw [h]
      simp only [hn, h1.1, h1.2, le_refl, if_pos]
      simp [weightNorm_getD, hw]
    · rw [if_neg h1] at hs
      by_cases h2 : e.from_ = u
      · rw [if_pos h2, List.mem_singleton] at hs
        simp only [hs, h2]
        simp [weightNorm_getD, hw]
      · rw [if_neg h2] at hs
        by_cases h3 : e.to_ = u
        · rw [if_pos h3, List.mem_singleton] at hs
          subst h3
          simp only [hs]
          by_cases hle : e.to_.toKey ≤ e.from_.toKey
          · by_cases hge : e.from_.toKey ≤ e.to_.toKey
            · have heq : e.from_ = e.to_ := hinj (le_antisymm hge hle)
              rw [heq]
              simp [weightNorm_getD]
            · rw [if_pos hle, if_neg hge]
              simp [weightNorm_getD]
          · have hge : e.from_.toKey ≤ e.to_.toKey :=
              (le_total e.from_.toKey e.to_.toKey).resolve_right hle
            rw [if_neg hle, if_pos hge]
            simp [weightNorm_getD]
        · rw [if_neg h3] at hs
          exact absurd hs (List.not_mem_nil s)

lemma keyOfPair_wpair (directed : Bool) (e : Edge) :
    keyOfPair directed (wpair directed e) = canonKey directed e := by
  cases directed with
  | true => rw [wpair, keyOfPair, canonKey, if_pos rfl, if_pos rfl, if_pos rfl]
  | false =>
    rw [wpair, keyOfPair, canonKey,
      if_neg Bool.false_ne_true, if_neg Bool.false_ne_true, if_neg Bool.false_ne_true]
    by_cases hle : e.from_.toKey ≤ e.to_.toKey
    · rw [if_pos hle]
    · rw [if_neg hle, undirKey_symm]

lemma slotContrib_self_mem (directed : Bool) (e : Edge) :
    (⟨e.to_, e.weight.getD 1⟩ : Slot) ∈ slotContrib directed e.from_ e := by
  rw [slotContrib]
  cases directed with
  | true =>
    rw [if_pos rfl, if_pos rfl]
    exact List.mem_singleton.mpr rfl
  | false =>
    rw [if_neg Bool.false_ne_true]
    by_cases h1 : e.from_ = e.from_ ∧ e.to_ = e.from_
    · rw [if_pos h1, h1.2]
      exact List.mem_cons_self _ _
    · rw [if_neg h1, if_pos rfl]
      exact List.mem_singleton.mpr rfl

lemma slotsFor_fresh (directed : Bool) (processed : List Edge) (e : Edge)
    (h : canonKey directed e ∉ processed.map (canonKey directed)) :
    (slotsFor directed processed e.from_).any (fun s => s.node = e.to_) = false := by
  rw [List.any_eq_false]
  intro s hs
  rw [slotsFor, List.mem_flatMap] at hs
  obtain ⟨e₂, he₂, hmem⟩ := hs
  intro hnode
  have hn : s.node = e.to_ := by simpa using hnode
  have hkey := slotContrib_key directed e.from_ e₂ s hmem
  rw [hn] at hkey
  have : canonKey directed e = canonKey directed e₂ := by
    rw [← hkey, canonKey]
  exact h (this ▸ List.mem_map_of_mem (canonKey directed) he₂)

lemma mem_slotEntries (g : Graph) (u : NodeId) (s : Slot) :
    (u, s) ∈ g.slotEntries ↔ u ∈ g.nodesList ∧ s ∈ g.getNeighbors u := by
  rw [Graph.slotEntries, List.mem_flatMap]
  constructor
  · rintro ⟨v, hv, hmem⟩
    rw [List.mem_map] at hmem
    obtain ⟨s₂, hs₂, heq⟩ := hmem
    injection heq with h1 h2
    rw [← h1, ← h2]
    exact ⟨hv, hs₂⟩
  · rintro ⟨hu, hs⟩
    exact ⟨u, hu, List.mem_map.mpr ⟨s, hs, rfl⟩⟩

lemma foldl_addNode_spec :
    ∀ (ns : List NodeRec) (g : Graph),
      (∀ n ∈ ns, n.id ∉ g.nodesList) →
      ((ns.map (fun n => n.id.toKey)).Nodup) →
      ((ns.map (fun n => n.id)).Nodup) →
      (ns.foldl (fun g n => g.addNode n.id) g).config = g.config ∧
      (ns.foldl (fun g n => g.addNode n.id) g).edgeCount = g.edgeCount ∧
      (ns.foldl (fun g n => g.addNode n.id) g).nodesList =
        g.nodesList ++ ns.map (fun n => n.id) ∧
      (∀ k, k ∉ ns.map (fun n => n.id.toKey) →
        objGet (ns.foldl (fun g n => g.addNode n.id) g).adj k = objGet g.adj k) ∧
      (∀ n ∈ ns, objGet (ns.foldl (fun g n => g.addNode n.id) g).adj n.id.toKey = some []) := by
  intro ns
  induction ns with
  | nil =>
    intro g _ _ _
    refine ⟨rfl, rfl, by simp, fun k _ => rfl, fun n hn => absurd hn (List.not_mem_nil n)⟩
  | cons n rest ih =>
    intro g hfresh hkeys hids
    rw [List.map_cons, List.nodup_cons] at hkeys hids
    have hg1 : g.addNode n.id =
        { g with nodesList := g.nodesList ++ [n.id], adj := objSet g.adj n.id.toKey [] } := by
      rw [Graph.addNode, if_neg (hfresh n (List.mem_cons_self n rest))]
    have hstep : (n :: rest).foldl (fun g n => g.addNode n.id) g =
        rest.foldl (fun g n => g.addNode n.id) (g.addNode n.id) := rfl
    obtain ⟨ihc, ihe, ihn, ihk, ihm⟩ := ih (g.addNode n.id)
      (by
        intro m hm
        rw [hg1]
        intro hmem
        rcases List.mem_append.mp hmem with h | h
        · exact hfresh m (List.mem_cons_of_mem n hm) h
        · rw [List.mem_singleton] at h
          exact hids.1 (h ▸ List.mem_map_of_mem (fun n => n.id) hm))
      hkeys.2 hids.2
    rw [hstep]
    refine ⟨by rw [ihc, hg1], by rw [ihe, hg1], ?_, ?_, ?_⟩
    · rw [ihn, hg1, List.map_cons, List.append_assoc, List.singleton_append]
    · intro k hk
      have hk1 : k ∉ rest.map (fun n => n.id.toKey) :=
        fun h => hk (List.mem_cons_of_mem _ h)
      have hk2 : k ≠ n.id.toKey := fun h => hk (List.mem_cons.mpr (Or.inl h))
      rw [ihk k hk1, hg1]
      exact objGet_objSet_other g.adj n.id.toKey k [] hk2
    · intro m hm
      rcases List.mem_cons.mp hm with hm | hm
      · rw [hm, ihk n.id.toKey hkeys.1, hg1]
        exact objGet_objSet_same g.adj n.id.toKey []
      · exact ihm m hm

lemma getNeighbors_mk (nl : List NodeId) (adj : List (String × List Slot))
    (c : GraphConfig) (ec : Int) (u : NodeId) :
    (Graph.mk nl adj c ec).getNeighbors u = (objGet adj u.toKey).getD [] := rfl

lemma addEdge_run (g : Graph) (e : Edge)
    (h1 : ¬(¬g.config.allowSelfLoops = true ∧ e.from_ = e.to_))
    (hfrom : e.from_ ∈ g.nodesList) (hto : e.to_ ∈ g.nodesList)
    (h2 : (g.getNeighbors e.from_).any (fun s => s.node = e.to_) = false) :
    g.addEdge e =
      (let w := e.weight.getD 1
       let g2 : Graph := { g with
         adj := objSet g.adj e.from_.toKey (g.getNeighbors e.from_ ++ [⟨e.to_, w⟩])
         edgeCount := g.edgeCount + 1 }
       if g.config.directed then .ok g2
       else .ok { g2 with
         adj := objSet g2.adj e.to_.toKey (g2.getNeighbors e.to_ ++ [⟨e.from_, w⟩]) }) := by
  have eqg1 : (g.addNode e.from_).addNode e.to_ = g := by
    rw [addNode_mem g e.from_ hfrom, addNode_mem g e.to_ hto]
  have hc2 : ¬(¬g.config.allowMultipleEdges = true ∧
      (g.getNeighbors e.from_).any (fun s => s.node = e.to_) = true) := by
    rintro ⟨-, hh⟩
    rw [h2] at hh
    exact Bool.false_ne_true hh
  simp only [Graph.addEdge]
  rw [eqg1, if_neg h1, if_neg hc2]
  by_cases hd : g.config.directed = true
  · rw [if_neg (fun hh => hh hd), if_pos hd]
  · rw [if_pos hd, if_neg hd]

lemma addEdge_spec (cfg : GraphConfig) (ids : List NodeId) (g : Graph) (e : Edge)
    (processed : List Edge)
    (hcfg : g.config = cfg) (hnodes : g.nodesList = ids)
    (hkeys : (ids.map NodeId.toKey).Nodup)
    (hf : e.from_ ∈ ids) (ht : e.to_ ∈ ids)
    (hsl : cfg.allowSelfLoops = false → e.from_ ≠ e.to_)
    (hfresh : canonKey cfg.directed e ∉ processed.map (canonKey cfg.directed))
    (hadj : ∀ u ∈ ids, objGet g.adj u.toKey = some (slotsFor cfg.directed processed u)) :
    ∃ g', g.addEdge e = .ok g' ∧ g'.config = cfg ∧ g'.nodesList = ids ∧
      ∀ u ∈ ids, objGet g'.adj u.toKey =
        some (slotsFor cfg.directed (processed ++ [e]) u) := by
  have hinj := List.inj_on_of_nodup_map hkeys
  have h1 : ¬(¬g.config.allowSelfLoops = true ∧ e.from_ = e.to_) := by
    rintro ⟨ha, hb⟩
    rw [hcfg] at ha
    cases hals : cfg.allowSelfLoops with
    | true => exact ha hals
    | false => exact hsl hals hb
  have hany : (g.getNeighbors e.from_).any (fun s => s.node = e.to_) = false := by
    rw [Graph.getNeighbors, hadj e.from_ hf, Option.getD_some]
    exact slotsFor_fresh cfg.directed processed e hfresh
  have hrun := addEdge_run g e h1 (by rw [hnodes]; exact hf) (by rw [hnodes]; exact ht) hany
  rw [hrun]
  cases hdir : cfg.directed with
  | true =>
    rw [hdir] at hadj hfresh
    have hfl : g.getNeighbors e.from_ = slotsFor true processed e.from_ := by
      rw [Graph.getNeighbors, hadj e.from_ hf, Option.getD_some]
    simp only [hcfg, hdir]
    refine ⟨_, rfl, rfl, hnodes, ?_⟩
    intro u hu
    rw [slotsFor_append]
    by_cases huf : u = e.from_
    · subst huf
      rw [objGet_objSet_same, hfl]
      have hsc : slotContrib true e.from_ e = [⟨e.to_, e.weight.getD 1⟩] := by
        rw [slotContrib]
        simp
      rw [hsc]
    · have hne : u.toKey ≠ e.from_.toKey := fun hh => huf (hinj hu hf hh)
      rw [objGet_objSet_other _ _ _ _ hne, hadj u hu]
      have hsc : slotContrib true u e = [] := by
        rw [slotContrib]
        simp [show ¬(e.from_ = u) from fun hh => huf hh.symm]
      rw [hsc, List.append_nil]
  | false =>
    rw [hdir] at hadj hfresh
    have hfl : g.getNeighbors e.from_ = slotsFor false processed e.from_ := by
      rw [Graph.getNeighbors, hadj e.from_ hf, Option.getD_some]
    simp only [hcfg, hdir, Bool.false_eq_true, if_false, getNeighbors_mk]
    refine ⟨_, rfl, rfl, hnodes, ?_⟩
    intro u hu
    rw [slotsFor_append]
    by_cases hself : e.from_ = e.to_
    · by_cases hut : u = e.to_
      · subst hut
        rw [← hself]
        rw [objGet_objSet_same, objGet_objSet_same, Option.getD_some, hfl]
        have hsc : slotContrib false e.from_ e =
            [⟨e.from_, e.weight.getD 1⟩, ⟨e.from_, e.weight.getD 1⟩] := by
          rw [slotContrib]
          simp [← hself]
        rw [hsc]
        simp [List.append_assoc]
      · have hnt : u.toKey ≠ e.to_.toKey := fun hh => hut (hinj hu ht hh)
        have hnf : u.toKey ≠ e.from_.toKey := by rw [hself]; exact hnt
        rw [objGet_objSet_other _ _ _ _ hnt, objGet_objSet_other _ _ _ _ hnf, hadj u hu]
        have hsc : slotContrib false u e = [] := by
          rw [slotContrib]
          simp [show ¬(e.from_ = u) from
              fun hh => hut (by rw [← hh, hself]),
            show ¬(e.to_ = u) from fun hh => hut hh.symm]
        rw [hsc, List.append_nil]
    · have hktf : e.from_.toKey ≠ e.to_.toKey := fun hh => hself (hinj hf ht hh)
      by_cases huf : u = e.from_
      · subst huf
        rw [objGet_objSet_other _ _ _ _ hktf, objGet_objSet_same, hfl]
        have hsc : slotContrib false e.from_ e = [⟨e.to_, e.weight.getD 1⟩] := by
          rw [slotContrib]
          simp [show ¬(e.to_ = e.from_) from fun hh => hself hh.symm]
        rw [hsc]
      · by_cases hut : u = e.to_
        · subst hut
          rw [objGet_objSet_same,
            objGet_objSet_other _ _ _ _ (fun hh => hktf hh.symm), hadj e.to_ ht,
            Option.getD_some]
          have hsc : slotContrib false e.to_ e = [⟨e.from_, e.weight.getD 1⟩] := by
            rw [slotContrib]
            simp [hself]
          rw [hsc]
        · have hnt : u.toKey ≠ e.to_.toKey := fun hh => hut (hinj hu ht hh)
          have hnf : u.toKey ≠ e.from_.toKey := fun hh => huf (hinj hu hf hh)
          rw [objGet_objSet_other _ _ _ _ hnt, objGet_objSet_other _ _ _ _ hnf,
            hadj u hu]
          have hsc : slotContrib false u e = [] := by
            rw [slotContrib]
            simp [show ¬(e.from_ = u) from fun hh => huf hh.symm,
              show ¬(e.to_ = u) from fun hh => hut hh.symm]
          rw [hsc, List.append_nil]

lemma addEdges_spec (cfg : GraphConfig) (ids : List NodeId)
    (hkeys : (ids.map NodeId.toKey).Nodup) :
    ∀ (edges processed : List Edge) (g : Graph),
      g.config = cfg → g.nodesList = ids →
      (∀ e ∈ edges, e.from_ ∈ ids ∧ e.to_ ∈ ids) →
      (cfg.allowSelfLoops = false → ∀ e ∈ edges, e.from_ ≠ e.to_) →
      ((processed ++ edges).map (canonKey cfg.directed)).Nodup →
      (∀ u ∈ ids, objGet g.adj u.toKey = some (slotsFor cfg.directed processed u)) →
      ∃ g', g.addEdges edges = .ok g' ∧ g'.config = cfg ∧ g'.nodesList = ids ∧
        ∀ u ∈ ids, objGet g'.adj u.toKey =
          some (slotsFor cfg.directed (processed ++ edges) u) := by
  intro edges
  induction edges with
  | nil =>
    intro processed g hcfg hnodes _ _ _ hadj
    refine ⟨g, ?_, hcfg, hnodes, ?_⟩
    · rw [Graph.addEdges, List.foldlM_nil]
      rfl
    · rw [List.append_nil]
      exact hadj
  | cons e rest ih =>
    intro processed g hcfg hnodes hends hsl hnd hadj
    have hfresh : canonKey cfg.directed e ∉ processed.map (canonKey cfg.directed) := by
      rw [List.map_append, List.nodup_append] at hnd
      intro hmem
      exact hnd.2.2 hmem (List.mem_map_of_mem _ (List.mem_cons_self e rest))
    obtain ⟨g1, hrun, hcfg1, hnodes1, hadj1⟩ :=
      addEdge_spec cfg ids g e processed hcfg hnodes hkeys
        (hends e (List.mem_cons_self e rest)).1 (hends e (List.mem_cons_self e rest)).2
        (fun hals => hsl hals e (List.mem_cons_self e rest)) hfresh hadj
    have hstep : g.addEdges (e :: rest) = g1.addEdges rest := by
      rw [Graph.addEdges, Graph.addEdges, List.foldlM_cons, hrun]
      rfl
    have hnd2 : (((processed ++ [e]) ++ rest).map (canonKey cfg.directed)).Nodup := by
      rw [List.append_assoc, List.singleton_append]
      exact hnd
    obtain ⟨g', hrun2, hcfg2, hnodes2, hadj2⟩ :=
      ih (processed ++ [e]) g1 hcfg1 hnodes1
        (fun e2 he2 => hends e2 (List.mem_cons_of_mem e he2))
        (fun hals e2 he2 => hsl hals e2 (List.mem_cons_of_mem e he2)) hnd2 hadj1
    refine ⟨g', by rw [hstep]; exact hrun2, hcfg2, hnodes2, ?_⟩
    intro u hu
    rw [← List.singleton_append, ← List.append_assoc]
    exact hadj2 u hu

lemma buildGraphFromData_spec (d : GraphData)
    (hv : validGraphData d) (hk : edgeKeysNodup d) :
    ∃ g, buildGraphFromData d = .ok g ∧ g.config = d.config ∧
      g.nodesList = d.nodes.map (fun n => n.id) ∧
      ∀ u ∈ d.nodes.map (fun n => n.id),
        objGet g.adj u.toKey = some (slotsFor d.config.directed d.edges u) := by
  obtain ⟨hids, hkeys, hends, hsl⟩ := hv
  obtain ⟨hc0, _, hn0, _, hm0⟩ :=
    foldl_addNode_spec d.nodes (Graph.init d.config)
      (fun n _ hmem => absurd hmem (List.not_mem_nil n.id)) hkeys hids
  have hkeys2 : ((d.nodes.map (fun n => n.id)).map NodeId.toKey).Nodup := by
    rw [List.map_map]
    exact hkeys
  have hadj0 : ∀ u ∈ d.nodes.map (fun n => n.id),
      objGet (d.nodes.foldl (fun g n => g.addNode n.id) (Graph.init d.config)).adj u.toKey =
        some (slotsFor d.config.directed [] u) := by
    intro u hu
    rw [List.mem_map] at hu
    obtain ⟨n, hn, hnu⟩ := hu
    rw [← hnu]
    exact hm0 n hn
  obtain ⟨g, hrun, hcfg, hnodes, hadj⟩ :=
    addEdges_spec d.config (d.nodes.map (fun n => n.id)) hkeys2 d.edges []
      (d.nodes.foldl (fun g n => g.addNode n.id) (Graph.init d.config))
      (by rw [hc0]; rfl)
      (by rw [hn0]; rfl)
      hends hsl
      (by rw [List.nil_append]; exact hk)
      hadj0
  refine ⟨g, ?_, hcfg, hnodes, ?_⟩
  · rw [buildGraphFromData]
    exact hrun
  · intro u hu
    rw [hadj u hu, List.nil_append]

lemma getEdges_perm (cfg : GraphConfig) (ids : List NodeId) (es : List Edge) (g : Graph)
    (hcfg : g.config = cfg) (hnodes : g.nodesList = ids)
    (hkeys : (ids.map NodeId.toKey).Nodup)
    (hends : ∀ e ∈ es, e.from_ ∈ ids ∧ e.to_ ∈ ids)
    (hnd : (es.map (canonKey cfg.directed)).Nodup)
    (hadj : ∀ u ∈ ids, objGet g.adj u.toKey = some (slotsFor cfg.directed es u)) :
    (g.getEdges.map (wpair cfg.directed)).Perm (es.map (wpair cfg.directed)) := by
  have hinj := List.inj_on_of_nodup_map hkeys
  have hedge_inj := List.inj_on_of_nodup_map hnd
  have hn : ∀ u ∈ ids, g.getNeighbors u = slotsFor cfg.directed es u := by
    intro u hu
    rw [Graph.getNeighbors, hadj u hu, Option.getD_some]
  have hRchar : ∀ r ∈ dedupPairs
      (g.slotEntries.map (fun p =>
        ((⟨p.1, p.2.node, if p.2.weight = 1 then none else some p.2.weight⟩ : Edge),
          g.edgeKey p.1 p.2.node))) [],
      ∃ e ∈ es, r.2 = canonKey cfg.directed e ∧
        wpair cfg.directed r.1 = wpair cfg.directed e := by
    intro r hr
    have hrR := dedupPairs_sub _ [] r hr
    rw [List.mem_map] at hrR
    obtain ⟨p, hp, hpr⟩ := hrR
    obtain ⟨u, s⟩ := p
    rw [mem_slotEntries] at hp
    have hu : u ∈ ids := by rw [← hnodes]; exact hp.1
    have hs : s ∈ slotsFor cfg.directed es u := by rw [← hn u hu]; exact hp.2
    rw [slotsFor, List.mem_flatMap] at hs
    obtain ⟨e, he, hmem⟩ := hs
    refine ⟨e, he, ?_, ?_⟩
    · rw [← hpr]
      show g.edgeKey u s.node = canonKey cfg.directed e
      rw [Graph.edgeKey, hcfg]
      exact slotContrib_key cfg.directed u e s hmem
    · rw [← hpr]
      show wpair cfg.directed ⟨u, s.node, if s.weight = 1 then none else some s.weight⟩ =
        wpair cfg.directed e
      exact slotContrib_wpair cfg.directed u e s
        (fun hh => hinj (hends e he).1 (hends e he).2 hh) hmem
  have hndD := (dedupPairs_keys_nodup
      (g.slotEntries.map (fun p =>
        ((⟨p.1, p.2.node, if p.2.weight = 1 then none else some p.2.weight⟩ : Edge),
          g.edgeKey p.1 p.2.node))) []).1
  have hkeymap : (dedupPairs
      (g.slotEntries.map (fun p =>
        ((⟨p.1, p.2.node, if p.2.weight = 1 then none else some p.2.weight⟩ : Edge),
          g.edgeKey p.1 p.2.node))) []).map
        (fun r => keyOfPair cfg.directed (wpair cfg.directed r.1)) =
      (dedupPairs
      (g.slotEntries.map (fun p =>
        ((⟨p.1, p.2.node, if p.2.weight = 1 then none else some p.2.weight⟩ : Edge),
          g.edgeKey p.1 p.2.node))) []).map (·.2) := by
    apply List.map_congr_left
    intro r hr
    obtain ⟨e, he, hk, hw⟩ := hRchar r hr
    rw [hw, keyOfPair_wpair, hk]
  have hndL : ((dedupPairs
      (g.slotEntries.map (fun p =>
        ((⟨p.1, p.2.node, if p.2.weight = 1 then none else some p.2.weight⟩ : Edge),
          g.edgeKey p.1 p.2.node))) []).map
        (fun r => wpair cfg.directed r.1)).Nodup := by
    apply List.Nodup.of_map (keyOfPair cfg.directed)
    rw [List.map_map]
    rw [show ((keyOfPair cfg.directed) ∘ (fun r : Edge × String => wpair cfg.directed r.1)) =
        (fun r : Edge × String => keyOfPair cfg.directed (wpair cfg.directed r.1)) from rfl]
    rw [hkeymap]
    exact hndD
  have hndR : (es.map (wpair cfg.directed)).Nodup := by
    apply List.Nodup.of_map (keyOfPair cfg.directed)
    rw [List.map_map]
    rw [show ((keyOfPair cfg.directed) ∘ (wpair cfg.directed)) =
        (fun e => keyOfPair cfg.directed (wpair cfg.directed e)) from rfl]
    rw [List.map_congr_left (fun e _ => keyOfPair_wpair cfg.directed e)]
    exact hnd
  rw [Graph.getEdges, List.map_map]
  have hcomp : ((wpair cfg.directed) ∘ (fun r : Edge × String => r.1)) =
      (fun r : Edge × String => wpair cfg.directed r.1) := rfl
  rw [hcomp]
  refine (List.perm_ext_iff_of_nodup hndL hndR).mpr ?_
  intro x
  constructor
  · intro hx
    rw [List.mem_map] at hx
    obtain ⟨r, hr, hxr⟩ := hx
    obtain ⟨e, he, hk, hw⟩ := hRchar r hr
    rw [← hxr, hw]
    exact List.mem_map_of_mem _ he
  · intro hx
    rw [List.mem_map] at hx
    obtain ⟨e, he, hxe⟩ := hx
    have hslot : (⟨e.to_, e.weight.getD 1⟩ : Slot) ∈ g.getNeighbors e.from_ := by
      rw [hn e.from_ (hends e he).1, slotsFor, List.mem_flatMap]
      exact ⟨e, he, slotContrib_self_mem cfg.directed e⟩
    have hentry : (e.from_, (⟨e.to_, e.weight.getD 1⟩ : Slot)) ∈ g.slotEntries := by
      rw [mem_slotEntries]
      exact ⟨by rw [hnodes]; exact (hends e he).1, hslot⟩
    have hitem : ((⟨e.from_, e.to_,
        if e.weight.getD 1 = 1 then none else some (e.weight.getD 1)⟩ : Edge),
          g.edgeKey e.from_ e.to_) ∈
        g.slotEntries.map (fun p =>
          ((⟨p.1, p.2.node, if p.2.weight = 1 then none else some p.2.weight⟩ : Edge),
            g.edgeKey p.1 p.2.node)) :=
      List.mem_map_of_mem _ hentry
    have hkey : g.edgeKey e.from_ e.to_ = canonKey cfg.directed e := by
      rw [Graph.edgeKey, canonKey, hcfg]
    obtain ⟨y, hy⟩ := dedupPairs_exists _ []
      (⟨e.from_, e.to_, if e.weight.getD 1 = 1 then none else some (e.weight.getD 1)⟩ : Edge)
      (g.edgeKey e.from_ e.to_) hitem (List.not_mem_nil _)
    obtain ⟨e2, he2, hk2, hw2⟩ := hRchar (y, g.edgeKey e.from_ e.to_) hy
    have he2e : e2 = e := by
      apply hedge_inj he2 he
      rw [← hk2]
      exact hkey
    rw [List.mem_map]
    refine ⟨(y, g.edgeKey e.from_ e.to_), hy, ?_⟩
    show wpair cfg.directed (y, g.edgeKey e.from_ e.to_).1 = x
    rw [hw2, he2e]
    exact hxe

/-- Witness for C10 at the one-node self-loop graph. -/
theorem claim_C10_self_loop_witness :
    (.num 1 : NodeId) ∈ selfLoopGraph.nodesList ∧
    (⟨.num 1, 1⟩ : Slot) ∈ selfLoopGraph.getNeighbors (.num 1) ∧
    (isBipartite selfLoopGraph).isBipartite = false :=
  ⟨by decide, by decide,
    claim_C10_self_loop_not_bipartite selfLoopGraph (.num 1) 1 (by decide) (by decide)⟩

/-- Witness for C9 at a concrete directed graph. -/
theorem claim_C9_directed_guard_witness :
    emptyDirectedGraph.isDirected = true ∧
    kruskal emptyDirectedGraph =
      .error "Kruskal\x27s algorithm only works on undirected graphs" ∧
    prim emptyDirectedGraph none =
      .error "Prim\x27s algorithm only works on undirected graphs" :=
  ⟨rfl, (claim_C9_directed_guard emptyDirectedGraph rfl).1,
    (claim_C9_directed_guard emptyDirectedGraph rfl).2 none⟩

lemma edgeKeysNodup_roundTripData : edgeKeysNodup roundTripData := by
  have h1 : ¬ ((NodeId.num 2).toKey ≤ (NodeId.num 1).toKey) := by
    rw [String.le_iff_toList_le]
    decide
  have h2 : (NodeId.num 2).toKey ≤ (NodeId.num 3).toKey := by
    rw [String.le_iff_toList_le]
    decide
  have e1 : canonKey false (⟨.num 2, .num 1, some 5⟩ : Edge) = "1-2" := by
    rw [canonKey, if_neg Bool.false_ne_true, undirKey, if_neg h1]
    decide
  have e2 : canonKey false (⟨.num 2, .num 3, some 1⟩ : Edge) = "2-3" := by
    rw [canonKey, if_neg Bool.false_ne_true, undirKey, if_pos h2]
    decide
  have hmap : roundTripData.edges.map (canonKey roundTripData.config.directed) =
      ["1-2", "2-3"] := by
    rw [show roundTripData.config.directed = false from rfl,
      show roundTripData.edges =
        [(⟨.num 2, .num 1, some 5⟩ : Edge), ⟨.num 2, .num 3, some 1⟩] from rfl,
      List.map_cons, List.map_cons, List.map_nil, e1, e2]
  rw [edgeKeysNodup, hmap]
  decide

/-- C6, amended: the round trip preserves the node list, the configuration,
and the edge set taken as weighted pairs, for every valid record whose edges
have pairwise distinct canonical `getEdges` keys (the unamended claim fails on
records with parallel edges, whose shared key the `seen`-set scan of
`getEdges` deduplicates away). -/
theorem claim_C6_round_trip_weighted_pairs
    (d : GraphData) (g : Graph) (id name : String) (description : Option String)
    (now : String)
    (hv : validGraphData d) (hk : edgeKeysNodup d)
    (hg : buildGraphFromData d = .ok g) :
    (graphToData g id name description now).nodes = d.nodes ∧
    (graphToData g id name description now).config = d.config ∧
    ((graphToData g id name description now).edges.map (wpair d.config.directed)).Perm
      (d.edges.map (wpair d.config.directed)) := by
  obtain ⟨g0, hrun, hcfg0, hnodes0, hadj0⟩ := buildGraphFromData_spec d hv hk
  rw [hg] at hrun
  injection hrun with hgg
  subst hgg
  have hkeys2 : ((d.nodes.map (fun n => n.id)).map NodeId.toKey).Nodup := by
    rw [List.map_map]
    exact hv.2.1
  refine ⟨?_, ?_, ?_⟩
  · show g.getNodes.map (fun nodeId => (⟨nodeId⟩ : NodeRec)) = d.nodes
    rw [Graph.getNodes, hnodes0, List.map_map]
    exact (List.map_congr_left (fun n _ => rfl)).trans (List.map_id d.nodes)
  · show g.configuration = d.config
    rw [Graph.configuration]
    exact hcfg0
  · show (g.getEdges.map (wpair d.config.directed)).Perm
      (d.edges.map (wpair d.config.directed))
    exact getEdges_perm d.config (d.nodes.map (fun n => n.id)) d.edges g
      hcfg0 hnodes0 hkeys2 hv.2.2.1 hk hadj0

/-- Counterexample refuting C6 as stated: `multiEdgeData` is valid under its
configuration (which allows parallel edges) and holds two parallel edges
1→2 of weights 2 and 3, yet the rebuilt record keeps only one edge: the
canonical-key deduplication of `getEdges` drops the second slot, so the edge
sets taken as weighted pairs differ. -/
theorem claim_C6_round_trip_counterexample :
    validGraphData multiEdgeData ∧
    buildGraphFromData multiEdgeData = .ok multiEdgeGraph ∧
    (graphToData multiEdgeGraph "g" "g" none "t").nodes = multiEdgeData.nodes ∧
    (graphToData multiEdgeGraph "g" "g" none "t").config = multiEdgeData.config ∧
    (graphToData multiEdgeGraph "g" "g" none "t").edges.length = 1 ∧
    multiEdgeData.edges.length = 2 ∧
    ¬ ((graphToData multiEdgeGraph "g" "g" none "t").edges.map
        (wpair multiEdgeData.config.directed)).Perm
      (multiEdgeData.edges.map (wpair multiEdgeData.config.directed)) := by
  refine ⟨by decide, by rfl, by rfl, by rfl, by rfl, by rfl, ?_⟩
  intro h
  have h2 := h.length_eq
  rw [List.length_map, List.length_map] at h2
  have e1 : (graphToData multiEdgeGraph "g" "g" none "t").edges.length = 1 := rfl
  have e2 : multiEdgeData.edges.length = 2 := rfl
  rw [e1, e2] at h2
  omega

/-- Witness for the amended C6 at the concrete record `roundTripData`. -/
theorem claim_C6_round_trip_witness :
    validGraphData roundTripData ∧ edgeKeysNodup roundTripData ∧
    buildGraphFromData roundTripData = .ok (okD (buildGraphFromData roundTripData) default) ∧
    ((graphToData (okD (buildGraphFromData roundTripData) default) "h" "h" (some "d")
        "t").nodes = roundTripData.nodes ∧
      (graphToData (okD (buildGraphFromData roundTripData) default) "h" "h" (some "d")
        "t").config = roundTripData.config ∧
      ((graphToData (okD (buildGraphFromData roundTripData) default) "h" "h" (some "d")
          "t").edges.map (wpair roundTripData.config.directed)).Perm
        (roundTripData.edges.map (wpair roundTripData.config.directed))) :=
  ⟨by decide, edgeKeysNodup_roundTripData, by rfl,
    claim_C6_round_trip_weighted_pairs roundTripData
      (okD (buildGraphFromData roundTripData) default) "h" "h" (some "d") "t"
      (by decide) edgeKeysNodup_roundTripData (by rfl)⟩

end GraphKit
